import Mathlib

/-!
# Verification of the bibliographic reference-database pipeline

A shallow embedding of the pipeline scripts (`build_ref_db.py`,
`dedup_refs.py`, `audit_refs.py`): the structured-entry (BibTeX) parser,
the multi-stage entity matcher, the merge-preserving database builder,
the integrity auditor, and the dedup/renumber engine, together with
theorems checking the specification's claims about them.

Python dictionaries are modelled as insertion-ordered association lists
(`PyDict`): writing an existing key overwrites in place, writing a new key
appends at the end, exactly as a Python `dict` behaves.  Strings are
Lean `String`s; scanning code works on the underlying `List Char`.
-/

set_option maxRecDepth 4000

/-! ## Association lists: the model of Python `dict` -/

/-- Insertion-ordered association list, the model of a Python `dict`. -/
abbrev PyDict (κ ν : Type) := List (κ × ν)

/-- `d[k]` lookup: first (and, for dict-built lists, only) binding of `k`. -/
def aget {κ ν : Type} [DecidableEq κ] (d : PyDict κ ν) (k : κ) : Option ν :=
  match d with
  | [] => none
  | (k', v) :: rest => if k' = k then some v else aget rest k

/-- `d.get(k, dflt)`. -/
def agetD {κ ν : Type} [DecidableEq κ] (d : PyDict κ ν) (k : κ) (dflt : ν) : ν :=
  (aget d k).getD dflt

/-- `d[k] = v`: overwrite in place if present, append at the end otherwise. -/
def aset {κ ν : Type} [DecidableEq κ] (d : PyDict κ ν) (k : κ) (v : ν) : PyDict κ ν :=
  match d with
  | [] => [(k, v)]
  | (k', v') :: rest => if k' = k then (k, v) :: rest else (k', v') :: aset rest k v

/-- `d.update(pairs)`: set each pair in order. -/
def asetAll {κ ν : Type} [DecidableEq κ] (d : PyDict κ ν) (ps : List (κ × ν)) : PyDict κ ν :=
  ps.foldl (fun acc p => aset acc p.1 p.2) d

/-- The keys of an association list, in order. -/
def akeys {κ ν : Type} (d : PyDict κ ν) : List κ := d.map Prod.fst

/-- No key occurs twice (always true of a list built by `aset` from `[]`). -/
def NodupKeys {κ ν : Type} (d : PyDict κ ν) : Prop := (akeys d).Nodup

theorem aget_cons_pos {κ ν : Type} [DecidableEq κ] (tl : PyDict κ ν) (a k : κ) (b : ν)
    (h : a = k) : aget ((a, b) :: tl) k = some b := by
  simp [aget, h]

theorem aget_cons_neg {κ ν : Type} [DecidableEq κ] (tl : PyDict κ ν) (a k : κ) (b : ν)
    (h : ¬ (a = k)) : aget ((a, b) :: tl) k = aget tl k := by
  simp [aget, h]

theorem aset_cons_pos {κ ν : Type} [DecidableEq κ] (tl : PyDict κ ν) (a k : κ) (b v : ν)
    (h : a = k) : aset ((a, b) :: tl) k v = (k, v) :: tl := by
  simp [aset, h]

theorem aset_cons_neg {κ ν : Type} [DecidableEq κ] (tl : PyDict κ ν) (a k : κ) (b v : ν)
    (h : ¬ (a = k)) : aset ((a, b) :: tl) k v = (a, b) :: aset tl k v := by
  simp [aset, h]

theorem aget_aset_self {κ ν : Type} [DecidableEq κ] (d : PyDict κ ν) (k : κ) (v : ν) :
    aget (aset d k v) k = some v := by
  induction d with
  | nil => simp [aset, aget]
  | cons hd tl ih =>
    obtain ⟨a, b⟩ := hd
    by_cases h : a = k
    · simp [aset, aget, h]
    · simp [aset, aget, h, ih]

theorem aget_aset_ne {κ ν : Type} [DecidableEq κ] (d : PyDict κ ν) (k k' : κ) (v : ν)
    (h : k' ≠ k) : aget (aset d k v) k' = aget d k' := by
  have hne : ¬ (k = k') := fun hh => h hh.symm
  induction d with
  | nil => simp [aset, aget, hne]
  | cons hd tl ih =>
    obtain ⟨a, b⟩ := hd
    by_cases hk : a = k
    · subst hk
      simp [aset, aget, hne]
    · by_cases hk' : a = k'
      · subst hk'
        simp [aset, aget, hk]
      · simp [aset, aget, hk, hk', ih]

theorem aset_same {κ ν : Type} [DecidableEq κ] (d : PyDict κ ν) (k : κ) (v : ν)
    (h : aget d k = some v) : aset d k v = d := by
  induction d with
  | nil => simp [aget] at h
  | cons hd tl ih =>
    obtain ⟨a, b⟩ := hd
    by_cases hk : a = k
    · rw [aget_cons_pos _ _ _ _ hk] at h
      rw [aset_cons_pos _ _ _ _ _ hk, ← hk]
      simp at h
      rw [h]
    · rw [aget_cons_neg _ _ _ _ hk] at h
      rw [aset_cons_neg _ _ _ _ _ hk, ih h]

theorem mem_akeys_aset {κ ν : Type} [DecidableEq κ] (d : PyDict κ ν) (k k' : κ) (v : ν) :
    k' ∈ akeys (aset d k v) ↔ k' = k ∨ k' ∈ akeys d := by
  induction d with
  | nil => simp [aset, akeys]
  | cons hd tl ih =>
    obtain ⟨a, b⟩ := hd
    by_cases hk : a = k
    · rw [aset_cons_pos _ _ _ _ _ hk]
      subst hk
      simp only [akeys, List.map_cons, List.mem_cons]
      tauto
    · rw [aset_cons_neg _ _ _ _ _ hk]
      simp only [akeys, List.map_cons, List.mem_cons]
      simp only [akeys] at ih
      rw [ih]
      tauto

theorem aget_isSome_iff_mem_akeys {κ ν : Type} [DecidableEq κ] (d : PyDict κ ν) (k : κ) :
    (aget d k).isSome ↔ k ∈ akeys d := by
  induction d with
  | nil => simp [aget, akeys]
  | cons hd tl ih =>
    obtain ⟨a, b⟩ := hd
    by_cases hk : a = k
    · simp [aget, akeys, hk]
    · simp only [aget, if_neg hk, akeys, List.map_cons, List.mem_cons] at ih ⊢
      rw [ih]
      constructor
      · tauto
      · rintro (h | h)
        · exact absurd h.symm hk
        · exact h

theorem nodupKeys_aset {κ ν : Type} [DecidableEq κ] (d : PyDict κ ν) (k : κ) (v : ν)
    (h : NodupKeys d) : NodupKeys (aset d k v) := by
  induction d with
  | nil => simp [aset, NodupKeys, akeys]
  | cons hd tl ih =>
    obtain ⟨a, b⟩ := hd
    by_cases hk : a = k
    · rw [NodupKeys, aset_cons_pos _ _ _ _ _ hk]
      subst hk
      simpa only [NodupKeys, akeys, List.map_cons, List.nodup_cons] using h
    · rw [NodupKeys, aset_cons_neg _ _ _ _ _ hk]
      simp only [NodupKeys, akeys, List.map_cons, List.nodup_cons] at h ⊢
      refine ⟨?_, ih h.2⟩
      intro hmem
      rcases (mem_akeys_aset tl k a v).1 hmem with h1 | h1
      · exact hk h1
      · exact h.1 h1

theorem aget_eq_some_of_mem {κ ν : Type} [DecidableEq κ] (d : PyDict κ ν) (k : κ) (v : ν)
    (hd : NodupKeys d) (h : (k, v) ∈ d) : aget d k = some v := by
  induction d with
  | nil => simp at h
  | cons hdp tl ih =>
    obtain ⟨a, b⟩ := hdp
    simp only [NodupKeys, akeys, List.map_cons, List.nodup_cons] at hd
    rcases List.mem_cons.1 h with hc | hc
    · rw [Prod.mk.injEq] at hc
      exact hc.2 ▸ aget_cons_pos _ _ _ _ hc.1.symm
    · have hk : ¬ (a = k) := by
        intro he
        subst he
        exact hd.1 (List.mem_map_of_mem Prod.fst hc)
      rw [aget_cons_neg _ _ _ _ hk]
      exact ih hd.2 hc

theorem mem_of_aget_eq_some {κ ν : Type} [DecidableEq κ] (d : PyDict κ ν) (k : κ) (v : ν)
    (h : aget d k = some v) : (k, v) ∈ d := by
  induction d with
  | nil => simp [aget] at h
  | cons hdp tl ih =>
    obtain ⟨a, b⟩ := hdp
    by_cases hk : a = k
    · rw [aget_cons_pos _ _ _ _ hk] at h
      simp only [Option.some.injEq] at h
      rw [← hk, ← h]
      exact List.mem_cons_self _ _
    · rw [aget_cons_neg _ _ _ _ hk] at h
      exact List.mem_cons_of_mem _ (ih h)

theorem asetAll_cons {κ ν : Type} [DecidableEq κ] (d : PyDict κ ν) (p : κ × ν)
    (ps : List (κ × ν)) : asetAll d (p :: ps) = asetAll (aset d p.1 p.2) ps := rfl

/-- Setting every pair of `ps` when `d` already holds those exact values is a no-op. -/
theorem asetAll_id {κ ν : Type} [DecidableEq κ] (d : PyDict κ ν) (ps : List (κ × ν))
    (h : ∀ p ∈ ps, aget d p.1 = some p.2) : asetAll d ps = d := by
  induction ps with
  | nil => rfl
  | cons hd tl ih =>
    rw [asetAll_cons, aset_same _ _ _ (h hd (by simp))]
    exact ih (fun p hp => h p (by simp [hp]))

/-- After `update`, a key not among those of `ps` keeps its old value. -/
theorem aget_asetAll_not_mem {κ ν : Type} [DecidableEq κ] (d : PyDict κ ν) (ps : List (κ × ν))
    (k : κ) (h : k ∉ ps.map Prod.fst) : aget (asetAll d ps) k = aget d k := by
  induction ps generalizing d with
  | nil => rfl
  | cons hd tl ih =>
    rw [List.map_cons] at h
    have h1 : ¬ (k = hd.1) := fun he => h (by rw [he]; exact List.mem_cons_self _ _)
    have h2 : k ∉ tl.map Prod.fst := fun hm => h (List.mem_cons_of_mem _ hm)
    rw [asetAll_cons, ih _ h2, aget_aset_ne _ _ _ _ h1]

/-- After `update`, a key of `ps` (whose keys are distinct) holds its `ps` value. -/
theorem aget_asetAll_mem {κ ν : Type} [DecidableEq κ] (d : PyDict κ ν) (ps : List (κ × ν))
    (hnd : (ps.map Prod.fst).Nodup) (p : κ × ν) (h : p ∈ ps) :
    aget (asetAll d ps) p.1 = some p.2 := by
  induction ps generalizing d with
  | nil => simp at h
  | cons hd tl ih =>
    rw [List.map_cons, List.nodup_cons] at hnd
    rcases List.mem_cons.1 h with hc | hc
    · subst hc
      rw [asetAll_cons, aget_asetAll_not_mem _ _ _ hnd.1, aget_aset_self]
    · rw [asetAll_cons]
      exact ih _ hnd.2 hc

theorem length_dropWhile_le_here {α : Type} (p : α → Bool) (l : List α) :
    (l.dropWhile p).length ≤ l.length := by
  induction l with
  | nil => simp [List.dropWhile]
  | cons c rest ih =>
    rw [List.dropWhile]
    by_cases h : p c
    · simp [h]
      omega
    · simp [h]

/-- `foldl` congruence: two folds agree when the step functions agree on members. -/
theorem foldl_congr_mem {α σ : Type} (l : List α) (f g : σ → α → σ) (s : σ)
    (h : ∀ s' a, a ∈ l → f s' a = g s' a) : l.foldl f s = l.foldl g s := by
  induction l generalizing s with
  | nil => rfl
  | cons hd tl ih =>
    simp only [List.foldl_cons]
    rw [h s hd (by simp)]
    exact ih _ (fun s' a ha => h s' a (by simp [ha]))

/-- `foldl` preserves an invariant. -/
theorem foldl_preserve {α σ : Type} {P : σ → Prop} (l : List α) (f : σ → α → σ) (s : σ)
    (hstep : ∀ s' a, a ∈ l → P s' → P (f s' a)) (h0 : P s) : P (l.foldl f s) := by
  induction l generalizing s with
  | nil => exact h0
  | cons hd tl ih =>
    exact ih _ (fun s' a ha => hstep s' a (by simp [ha])) (hstep s hd (by simp) h0)

/-! ## Character and string primitives (ASCII fragment of the Python behaviour) -/

/-- `\w` of the regexes: ASCII letters, digits, underscore. -/
def isWordCh (c : Char) : Bool :=
  (('a' ≤ c && c ≤ 'z') || ('A' ≤ c && c ≤ 'Z') || ('0' ≤ c && c ≤ '9') || c = '_')

def isDigitCh (c : Char) : Bool := '0' ≤ c && c ≤ '9'

def isUpperCh (c : Char) : Bool := 'A' ≤ c && c ≤ 'Z'

def isLowerCh (c : Char) : Bool := 'a' ≤ c && c ≤ 'z'

/-- `str.lower()`, on the ASCII range. -/
def asciiLowerCh (c : Char) : Char :=
  if isUpperCh c then Char.ofNat (c.toNat + 32) else c

/-- The whitespace class of `str.strip()` / `str.split()` / `\s`. -/
def isPySpace (c : Char) : Bool :=
  c = ' ' || c = '\t' || c = '\n' || c = '\r' || c = Char.ofNat 11 || c = Char.ofNat 12

def lowerChars (l : List Char) : List Char := l.map asciiLowerCh

def pyLower (s : String) : String := String.mk (lowerChars s.data)

/-- `str.strip()` (whitespace from both ends). -/
def pyStripChars (l : List Char) : List Char :=
  ((l.dropWhile isPySpace).reverse.dropWhile isPySpace).reverse

def pyStrip (s : String) : String := String.mk (pyStripChars s.data)

/-- `str.rstrip(ch)`. -/
def rstripChar (ch : Char) (l : List Char) : List Char :=
  (l.reverse.dropWhile (· = ch)).reverse

/-- `str.split()`: split on whitespace runs, discarding empty pieces. -/
def splitWsAux : List Char → List Char → List (List Char)
  | [], acc => if acc.isEmpty then [] else [acc.reverse]
  | c :: rest, acc =>
    if isPySpace c then
      if acc.isEmpty then splitWsAux rest [] else acc.reverse :: splitWsAux rest []
    else splitWsAux rest (c :: acc)

def pySplitWs (l : List Char) : List (List Char) := splitWsAux l []

/-- `' '.join(s.split())`: collapse whitespace runs to single spaces, trim ends. -/
def collapseWs (l : List Char) : List Char := List.intercalate [' '] (pySplitWs l)

/-- Python's `sub in s` substring test, on char lists. -/
def hasSegment (pat : List Char) : List Char → Bool
  | [] => pat.isPrefixOf ([] : List Char)
  | c :: rest => pat.isPrefixOf (c :: rest) || hasSegment pat rest

/-- Python's `sub in s` substring test, on strings. -/
def strIn (pat s : String) : Bool := hasSegment pat.data s.data

/-- Drop a literal prefix if present (the `re.sub(r'^lit', '', s)` pattern). -/
def dropPrefixIf (pat l : List Char) : List Char :=
  if pat.isPrefixOf l then l.drop pat.length else l

/-! ## `difflib.SequenceMatcher(None, a, b).ratio()`

Modelled exactly (with `isjunk=None` and the `autojunk` popularity heuristic),
over exact rationals where CPython computes in floating point. -/

/-- Indices of `c` in `b`, ascending (difflib's `b2j` chains). -/
def posList (b : List Char) (c : Char) : List Nat :=
  (List.range b.length).filter (fun j => b.get? j = some c)

/-- `b2j` lookup after the autojunk deletion of popular elements
(`len(b) >= 200` and more than `len(b)//100 + 1` occurrences). -/
def b2jOf (b : List Char) (c : Char) : List Nat :=
  let occ := posList b c
  if 200 ≤ b.length ∧ b.length / 100 + 1 < occ.length then [] else occ

/-- `a[i]` / `b[j]` with distinct out-of-range sentinels (never hit on the
index ranges the algorithm uses). -/
def chA (a : List Char) (i : Nat) : Char := a.getD i (Char.ofNat 0)

def chB (b : List Char) (j : Nat) : Char := b.getD j (Char.ofNat 1)

/-- Inner loop of `find_longest_match`: walk the ascending occurrence list of
`a[i]` in `b`, skipping `j < blo` (`continue`) and stopping at `j >= bhi`
(`break`), building `newj2len` and updating the best block on strict
improvement only. -/
def flmInner (i blo bhi : Nat) (j2len : PyDict Nat Nat) :
    List Nat → PyDict Nat Nat → Nat × Nat × Nat → PyDict Nat Nat × (Nat × Nat × Nat)
  | [], newj2len, best => (newj2len, best)
  | j :: js, newj2len, best =>
    if j < blo then flmInner i blo bhi j2len js newj2len best
    else if bhi ≤ j then (newj2len, best)
    else
      let prev := if j = 0 then 0 else agetD j2len (j - 1) 0
      let k := prev + 1
      let newj2len' := aset newj2len j k
      let best' := if best.2.2 < k then (i + 1 - k, j + 1 - k, k) else best
      flmInner i blo bhi j2len js newj2len' best'

/-- Outer loop of `find_longest_match` over `i in range(alo, ahi)`. -/
def flmOuter (a b : List Char) (blo bhi : Nat) :
    List Nat → PyDict Nat Nat → Nat × Nat × Nat → Nat × Nat × Nat
  | [], _, best => best
  | i :: is, j2len, best =>
    let js := b2jOf b (chA a i)
    let (newj2len, best') := flmInner i blo bhi j2len js [] best
    flmOuter a b blo bhi is newj2len best'

/-- The two plain-equality extension loops after the dynamic program (the
junk-extension loops are no-ops with `isjunk=None`). -/
def extendLeftAux (a b : List Char) (alo blo : Nat) :
    Nat → Nat → Nat → Nat → Nat × Nat × Nat
  | 0, besti, bestj, bestsize => (besti, bestj, bestsize)
  | fuel + 1, besti, bestj, bestsize =>
    if alo < besti ∧ blo < bestj ∧ chA a (besti - 1) = chB b (bestj - 1) then
      extendLeftAux a b alo blo fuel (besti - 1) (bestj - 1) (bestsize + 1)
    else (besti, bestj, bestsize)

/-- The left-extension loop (the step count is bounded by `besti`). -/
def extendLeft (a b : List Char) (alo blo besti bestj bestsize : Nat) :
    Nat × Nat × Nat :=
  extendLeftAux a b alo blo (besti + 1) besti bestj bestsize

def extendRightAux (a b : List Char) (ahi bhi besti bestj : Nat) :
    Nat → Nat → Nat
  | 0, bestsize => bestsize
  | fuel + 1, bestsize =>
    if besti + bestsize < ahi ∧ bestj + bestsize < bhi ∧
        chA a (besti + bestsize) = chB b (bestj + bestsize) then
      extendRightAux a b ahi bhi besti bestj fuel (bestsize + 1)
    else bestsize

/-- The right-extension loop (the step count is bounded by `ahi`). -/
def extendRight (a b : List Char) (ahi bhi besti bestj bestsize : Nat) : Nat :=
  extendRightAux a b ahi bhi besti bestj (ahi + 1) bestsize

/-- `find_longest_match(alo, ahi, blo, bhi)`. -/
def findLongestMatch (a b : List Char) (alo ahi blo bhi : Nat) : Nat × Nat × Nat :=
  let st := flmOuter a b blo bhi (List.range' alo (ahi - alo)) [] (alo, blo, 0)
  let st2 := extendLeft a b alo blo st.1 st.2.1 st.2.2
  (st2.1, st2.2.1, extendRight a b ahi bhi st2.1 st2.2.1 st2.2.2)

/-- Total size of all matching blocks (the sum `get_matching_blocks` feeds to
`ratio`); the fuel argument strictly exceeds the recursion depth on every
reachable input. -/
def matchTotal (a b : List Char) : Nat → Nat → Nat → Nat → Nat → Nat
  | 0, _, _, _, _ => 0
  | fuel + 1, alo, ahi, blo, bhi =>
    let m := findLongestMatch a b alo ahi blo bhi
    if m.2.2 = 0 then 0
    else matchTotal a b fuel alo m.1 blo m.2.1 + m.2.2 +
      matchTotal a b fuel (m.1 + m.2.2) ahi (m.2.1 + m.2.2) bhi

/-- `SequenceMatcher(None, a, b).ratio()` as an exact rational,
`2 * matches / (len(a) + len(b))` (written with `Rat.divInt`, which the
kernel can evaluate, unlike `Rat.div`). -/
def seqRatioChars (a b : List Char) : ℚ :=
  let total := a.length + b.length
  if total = 0 then 1
  else Rat.divInt (2 * (matchTotal a b (total + 1) 0 a.length 0 b.length : Int)) (total : Int)

def seqRatioStr (a b : String) : ℚ := seqRatioChars a.data b.data

/-! ## `build_ref_db.py`: entry field helpers -/

/-- A parsed structured (BibTeX) entry: field name → value, plus `_type`. -/
abbrev Fields := PyDict String String

/-- The parsed bibliography: key → fields. -/
abbrev BibDB := PyDict String Fields

/-- `classify_bib_type`: map the raw entry type to the fixed vocabulary. -/
def classifyBibType (entry : Fields) : String :=
  let t := agetD entry "_type" ""
  if t = "article" then "journal"
  else if t = "inproceedings" then "conference"
  else if t = "conference" then "conference"
  else if t = "book" then "book"
  else if t = "incollection" then "book-chapter"
  else if t = "phdthesis" then "thesis"
  else if t = "mastersthesis" then "thesis"
  else if t = "techreport" then "report"
  else if t = "misc" then "misc"
  else if t = "unpublished" then "preprint"
  else "misc"

/-- `bib_venue`: first present field among the fixed priority list. -/
def bibVenue (entry : Fields) : Option String :=
  match aget entry "journal" with
  | some v => some v
  | none => match aget entry "booktitle" with
    | some v => some v
    | none => match aget entry "publisher" with
      | some v => some v
      | none => match aget entry "howpublished" with
        | some v => some v
        | none => aget entry "school"

/-- Scan for `\(([A-Z]{2,}[^)]*)\)`: a parenthesized group whose first two
characters are upper-case, running to the next closing parenthesis. -/
def acronymScan : List Char → Option String
  | [] => none
  | c :: rest =>
    if c = '(' then
      let seg := rest.takeWhile (fun c2 => ¬ (c2 = ')'))
      match seg with
      | c1 :: c2 :: _ =>
        if isUpperCh c1 ∧ isUpperCh c2 ∧ ¬ (rest.drop seg.length).isEmpty then
          some (String.mk seg)
        else acronymScan rest
      | _ => acronymScan rest
    else acronymScan rest

/-- `bib_venue_short`: arXiv venues pass through; venues over 40 characters
are shortened to a parenthesized all-caps acronym when one exists. -/
def bibVenueShort (entry : Fields) : Option String :=
  match bibVenue entry with
  | none => none
  | some venue =>
    if venue = "" then none
    else if strIn "arxiv" (pyLower venue) then some venue
    else if 40 < venue.length then
      match acronymScan venue.data with
      | some acr => some acr
      | none => some venue
    else some venue

/-- Does `\s+and\s+` (case-insensitive `and`) match at the head?  Returns the
length of the match. -/
def matchAndSepAt (l : List Char) : Option Nat :=
  let ws1 := l.takeWhile isPySpace
  if ws1.isEmpty then none
  else match l.drop ws1.length with
    | c1 :: c2 :: c3 :: rest =>
      if asciiLowerCh c1 = 'a' ∧ asciiLowerCh c2 = 'n' ∧ asciiLowerCh c3 = 'd' then
        let ws2 := rest.takeWhile isPySpace
        if ws2.isEmpty then none else some (ws1.length + 3 + ws2.length)
      else none
    | _ => none

/-- `re.split(r'\s+and\s+', raw, flags=re.IGNORECASE)`. -/
def splitAndAux : Nat → List Char → List Char → List String
  | 0, l, acc => [String.mk (acc.reverse ++ l)]
  | _, [], acc => [String.mk acc.reverse]
  | fuel + 1, c :: rest, acc =>
    match matchAndSepAt (c :: rest) with
    | some n => String.mk acc.reverse :: splitAndAux fuel (rest.drop (n - 1)) []
    | none => splitAndAux fuel rest (c :: acc)

def splitAnd (s : String) : List String := splitAndAux (s.data.length + 1) s.data []

/-- `parse_bib_authors` on one segment: `"Last, First"` if a comma is
present, else `"First Last"` with the last whitespace token as surname;
returns `(first, last)`. -/
def parseOneAuthor (praw : String) : Option (String × String) :=
  let p := pyStrip praw
  if p = "" then none
  else if strIn "," p then
    let before := p.data.takeWhile (fun c => ¬ (c = ','))
    let after := p.data.drop (before.length + 1)
    some (pyStrip (String.mk after), pyStrip (String.mk before))
  else
    match (pySplitWs p.data).reverse with
    | [] => some ("", "")
    | [w] => some ("", String.mk w)
    | wlast :: winit =>
      some (String.mk (List.intercalate [' '] winit.reverse), String.mk wlast)

/-- `parse_bib_authors`. -/
def parseBibAuthors (raw : String) : List (String × String) :=
  if raw = "" then []
  else (splitAnd raw).filterMap parseOneAuthor

/-- The normalization inside `make_author_key`; `nfd` abstracts the
`unicodedata` NFD-decompose-and-drop-combining-marks step (the identity on
ASCII input). -/
def normalizeNamePart (nfd : String → String) (s : String) : String :=
  let kept := (lowerChars (nfd s).data).filter (fun c => isLowerCh c || isDigitCh c || c = ' ')
  String.mk (List.intercalate ['_'] (pySplitWs (pyStripChars kept)))

/-- `make_author_key`. -/
def makeAuthorKey (nfd : String → String) (first last : String) : String :=
  let lastN := normalizeNamePart nfd last
  let firstN := normalizeNamePart nfd first
  if ¬ (firstN = "") then lastN ++ "_" ++ firstN else lastN

/-- `make_display_name`. -/
def makeDisplayName (first last : String) : String :=
  if ¬ (first = "") then first ++ " " ++ last else last

/-- One pass of `re.sub(r'\\CMD\s*', '', s)` for a literal command name;
the fuel argument strictly exceeds the number of loop steps whenever it
starts at `l.length + 1` (every step shortens the list). -/
def removeSlashCmdAux (cmd : List Char) : Nat → List Char → List Char
  | 0, l => l
  | _, [] => []
  | fuel + 1, c :: rest =>
    if c = '\\' ∧ cmd.isPrefixOf rest then
      removeSlashCmdAux cmd fuel ((rest.drop cmd.length).dropWhile isPySpace)
    else c :: removeSlashCmdAux cmd fuel rest

def removeSlashCmd (cmd : List Char) (l : List Char) : List Char :=
  removeSlashCmdAux cmd (l.length + 1) l

/-- One pass of the accent substitutions `\\'\{?(\w)\}?` → `\1` (and the
`\"` variant).  The optional braces can never match here because
`_clean_latex` removed every brace in its first step. -/
def replaceAccentCmd (mark : Char) : List Char → List Char
  | [] => []
  | [c] => [c]
  | [c, m] => [c, m]
  | c :: m :: w :: rest =>
    if c = '\\' ∧ m = mark ∧ isWordCh w then w :: replaceAccentCmd mark rest
    else c :: replaceAccentCmd mark (m :: w :: rest)

/-- `re.sub(r'\\\w+\s*', '', s)`: drop remaining backslash commands. -/
def removeGenericCmdsAux : Nat → List Char → List Char
  | 0, l => l
  | _, [] => []
  | fuel + 1, c :: rest =>
    if c = '\\' then
      let w := rest.takeWhile isWordCh
      if w.isEmpty then c :: removeGenericCmdsAux fuel rest
      else removeGenericCmdsAux fuel ((rest.drop w.length).dropWhile isPySpace)
    else c :: removeGenericCmdsAux fuel rest

def removeGenericCmds (l : List Char) : List Char :=
  removeGenericCmdsAux (l.length + 1) l

/-- `_clean_latex`. -/
def cleanLatex (s : String) : String :=
  let l := s.data.filter (fun c => ¬ (c = '{' ∨ c = '}'))
  let l := removeSlashCmd "textit".data l
  let l := removeSlashCmd "textbf".data l
  let l := removeSlashCmd "emph".data l
  let l := replaceAccentCmd '\'' l
  let l := replaceAccentCmd '"' l
  let l := removeGenericCmds l
  String.mk (pyStripChars l)

/-- `re.search(r'\\url\{([^}]+)\}', s)`: the URL inside a `\url` command. -/
def urlCmdScan : List Char → Option String
  | [] => none
  | c :: rest =>
    if c = '\\' ∧ ("url\x7b".data).isPrefixOf rest then
      let after := rest.drop 4
      let seg := after.takeWhile (fun c2 => ¬ (c2 = '\x7d'))
      if seg.isEmpty ∨ (after.drop seg.length).isEmpty then urlCmdScan rest
      else some (String.mk seg)
    else urlCmdScan rest

/-- `re.search(r'\d{4}', s)`: the first run of four consecutive digits. -/
def digitVal (c : Char) : Nat := c.toNat - '0'.toNat

def firstFourDigits : List Char → Option Nat
  | [] => none
  | c :: rest =>
    match c :: rest with
    | c1 :: c2 :: c3 :: c4 :: _ =>
      if isDigitCh c1 ∧ isDigitCh c2 ∧ isDigitCh c3 ∧ isDigitCh c4 then
        some (digitVal c1 * 1000 + digitVal c2 * 100 + digitVal c3 * 10 + digitVal c4)
      else firstFourDigits rest
    | _ => none

/-! ## `build_ref_db.py`: matching -/

/-- `normalize_url`. -/
def normalizeUrl (s : String) : String :=
  let u := rstripChar '/' (pyStripChars s.data)
  let u := if ("https://".data).isPrefixOf u then u.drop 8
           else if ("http://".data).isPrefixOf u then u.drop 7 else u
  let u := dropPrefixIf "www.".data u
  let u := rstripChar '/' u
  String.mk (lowerChars u)

/-- `normalize_title`: lowercase, strip `[^\w\s]`, collapse whitespace. -/
def normalizeTitle (s : String) : String :=
  let kept := (lowerChars s.data).filter (fun c => isWordCh c || isPySpace c)
  String.mk (collapseWs kept)

/-- `title_similarity`. -/
def titleSimilarity (a b : String) : ℚ :=
  let na := normalizeTitle a
  let nb := normalizeTitle b
  if na = "" ∨ nb = "" then 0 else seqRatioStr na nb

/-- `re.search(r'arxiv\.org/abs/(\d+\.\d+)', url)`: the numeric identifier
after a literal `arxiv.org/abs/`. -/
def parseArxivNum (l : List Char) : Option String :=
  let d1 := l.takeWhile isDigitCh
  if d1.isEmpty then none
  else match l.drop d1.length with
    | '.' :: rest =>
      let d2 := rest.takeWhile isDigitCh
      if d2.isEmpty then none else some (String.mk (d1 ++ '.' :: d2))
    | _ => none

def arxivAbsLit : List Char := "arxiv.org/abs/".data

def arxivScan : List Char → Option String
  | [] => none
  | c :: rest =>
    if arxivAbsLit.isPrefixOf (c :: rest) then
      match parseArxivNum ((c :: rest).drop arxivAbsLit.length) with
      | some idStr => some idStr
      | none => arxivScan rest
    else arxivScan rest

/-- `extract_arxiv_id`. -/
def extractArxivId (url : String) : Option String :=
  if url = "" then none else arxivScan url.data

/-- A parsed reference-list entry of one document (`RefListParser` output). -/
structure HtmlRef where
  num : Nat
  authorsRaw : String
  title : String
  venue : String
  url : String
  year : Option Nat
  allText : String
deriving DecidableEq, Repr

/-- How a reference-list entry was resolved (`method`); the fuzzy and
author-year constructors carry the accepted score that the Python code
interpolates into the method string. -/
inductive MatchMethod where
  | url
  | arxiv
  | urlPartial
  | titleFuzzy (score : ℚ)
  | authorYear (score : ℚ)
  | noMatch
deriving DecidableEq, Repr

/-- The lookup indices `match_refs_to_bib` precomputes from the bibliography. -/
structure MatchIndices where
  urlToKey : PyDict String String
  arxivToKey : PyDict String String
  titleIndex : List (String × String)
deriving Repr

/-- The BibTeX-side URL of an entry: the `url` field, else a `\url{...}`
inside `howpublished`. -/
def bibUrlOf (entry : Fields) : String :=
  let u := agetD entry "url" ""
  if ¬ (u = "") then u
  else match urlCmdScan (agetD entry "howpublished" "").data with
    | some u2 => u2
    | none => ""

/-- Index construction of `match_refs_to_bib` (its first loop). -/
def buildIndices (bib : BibDB) : MatchIndices :=
  bib.foldl
    (fun idx kv =>
      let entry := kv.2
      let bibUrl := bibUrlOf entry
      let idx :=
        if ¬ (bibUrl = "") then
          let u2k := aset idx.urlToKey (normalizeUrl bibUrl) kv.1
          let a2k := match extractArxivId bibUrl with
            | some aid => aset idx.arxivToKey aid kv.1
            | none => idx.arxivToKey
          { idx with urlToKey := u2k, arxivToKey := a2k }
        else idx
      let doi := agetD entry "doi" ""
      let idx :=
        if ¬ (doi = "") then
          let doiUrl := "doi.org/" ++ doi
          let u2k := aset idx.urlToKey (normalizeUrl doiUrl) kv.1
          let u2k := aset u2k (normalizeUrl ("https://" ++ doiUrl)) kv.1
          let u2k := aset u2k (normalizeUrl ("http://dx." ++ doiUrl)) kv.1
          { idx with urlToKey := u2k }
        else idx
      let title := agetD entry "title" ""
      let title := if title = "" then agetD entry "journal" "" else title
      if ¬ (title = "") then
        { idx with titleIndex := idx.titleIndex ++ [(normalizeTitle title, kv.1)] }
      else idx)
    ⟨[], [], []⟩

/-- The candidate-field list of the fuzzy stage: declared title, venue,
then the raw author text and full fallback text when non-empty. -/
def fuzzyCandidates (ref : HtmlRef) : List String :=
  [ref.title, ref.venue]
    ++ (if ¬ (ref.authorsRaw = "") then [ref.authorsRaw] else [])
    ++ (if ¬ (ref.allText = "") then [ref.allText] else [])

/-- The per-pair score of the fuzzy stage: containment of a record title
(longer than 10 characters, at most two-thirds of the candidate) scores
0.95; otherwise `SequenceMatcher.ratio`.  The length guard
`len(ref_norm) > len(bib_norm) * 1.5` is exact in CPython's floats and is
written here in the equivalent integer form `3*len(bib) < 2*len(ref)`. -/
def fuzzyScore (refNorm bibNorm : String) : ℚ :=
  if 3 * bibNorm.length < 2 * refNorm.length ∧ 10 < bibNorm.length then
    if strIn bibNorm refNorm = true then Rat.divInt 19 20
    else seqRatioStr refNorm bibNorm
  else seqRatioStr refNorm bibNorm

/-- The scored `(candidate, record)` pairs, in loop order: candidate fields
outermost (empty normalizations skipped), index entries innermost. -/
def fuzzyPairs (cands : List String) (index : List (String × String)) :
    List (ℚ × String) :=
  cands.foldr
    (fun c acc =>
      let rn := normalizeTitle c
      if rn = "" then acc
      else (index.map (fun bk => (fuzzyScore rn bk.1, bk.2))) ++ acc)
    []

/-- Best-tracking fold of the fuzzy stage: replace only on a strictly
greater score. -/
def bestFold (l : List (ℚ × String)) (st : ℚ × Option String) : ℚ × Option String :=
  l.foldl (fun b p => if b.1 < p.1 then (p.1, some p.2) else b) st

/-- The single best pair over all candidate fields and records. -/
def fuzzyBest (cands : List String) (index : List (String × String)) :
    ℚ × Option String :=
  bestFold (fuzzyPairs cands index) (0, none)

/-- Stage 4 (`title-fuzzy`): accept the best pair iff its score reaches 0.65. -/
def fuzzyStage (cands : List String) (index : List (String × String)) :
    Option String :=
  let b := fuzzyBest cands index
  if Rat.divInt 13 20 ≤ b.1 then b.2 else none

/-- Stage 5 (`author-year`): restrict to records with the entry's year,
require the first author's surname in the entry's author or fallback text,
score `0.5 + 0.5 * title_similarity`, keep the strict best, accept at 0.55. -/
def authorYearBest (bib : BibDB) (ref : HtmlRef) (year : Nat) : ℚ × Option String :=
  let refAuthors := pyLower ref.authorsRaw
  let refAll := pyLower ref.allText
  bib.foldl
    (fun best kv =>
      let entry := kv.2
      let eyear := agetD entry "year" ""
      if ¬ (eyear = "") ∧ eyear = toString year then
        match parseBibAuthors (agetD entry "author" "") with
        | [] => best
        | (_, mainLast0) :: _ =>
          let mainLast := pyLower mainLast0
          if ¬ (mainLast = "") ∧ (strIn mainLast refAuthors ∨ strIn mainLast refAll) then
            let refTitle :=
              if ¬ (ref.title = "") then ref.title
              else if ¬ (ref.venue = "") then ref.venue
              else ref.allText
            let tscore := titleSimilarity refTitle (agetD entry "title" "")
            let score := Rat.divInt 1 2 + tscore * Rat.divInt 1 2
            if best.1 < score then (score, some kv.1) else best
          else best
      else best)
    (0, none)

/-- The full matching cascade of `match_refs_to_bib` for one entry. -/
def matchRef (bib : BibDB) (idx : MatchIndices) (ref : HtmlRef) :
    Option String × MatchMethod :=
  let refUrl := normalizeUrl ref.url
  let urlStage : Option (String × MatchMethod) :=
    if ¬ (refUrl = "") then
      match aget idx.urlToKey refUrl with
      | some k => some (k, MatchMethod.url)
      | none =>
        match extractArxivId ref.url with
        | some aid =>
          match aget idx.arxivToKey aid with
          | some k => some (k, MatchMethod.arxiv)
          | none =>
            match idx.urlToKey.find?
                (fun bu => strIn refUrl bu.1 || strIn bu.1 refUrl) with
            | some bu => some (bu.2, MatchMethod.urlPartial)
            | none => none
        | none =>
          match idx.urlToKey.find?
              (fun bu => strIn refUrl bu.1 || strIn bu.1 refUrl) with
          | some bu => some (bu.2, MatchMethod.urlPartial)
          | none => none
    else none
  match urlStage with
  | some km => (some km.1, km.2)
  | none =>
    let b := fuzzyBest (fuzzyCandidates ref) idx.titleIndex
    if Rat.divInt 13 20 ≤ b.1 then (b.2, MatchMethod.titleFuzzy b.1)
    else
      match ref.year with
      | some y =>
        if y = 0 then (none, MatchMethod.noMatch)
        else
          let ay := authorYearBest bib ref y
          match ay.2 with
          | some k =>
            if ¬ (k = "") ∧ Rat.divInt 11 20 ≤ ay.1 then (some k, MatchMethod.authorYear ay.1)
            else (none, MatchMethod.noMatch)
          | none => (none, MatchMethod.noMatch)
      | none => (none, MatchMethod.noMatch)

/-- `match_refs_to_bib`. -/
def matchRefsToBib (htmlRefs : List HtmlRef) (bib : BibDB) :
    List (HtmlRef × Option String × MatchMethod) :=
  let idx := buildIndices bib
  htmlRefs.map (fun r => (r, matchRef bib idx r))

/-! ## `build_ref_db.py`: synthetic keys and entries -/

/-- `re.match(r'([A-Z][a-z]+)', authors_raw)`, lower-cased, else `unknown`:
the leading capitalized word of the author text. -/
def synthSurname (authorsRaw : String) : String :=
  match authorsRaw.data with
  | c :: rest =>
    if isUpperCh c then
      let lows := rest.takeWhile isLowerCh
      if lows.isEmpty then "unknown" else String.mk (asciiLowerCh c :: lows)
    else "unknown"
  | [] => "unknown"

/-- The year component of a synthetic key.  The reference parser always
stores a `year` entry (`None` when unresolved), so `ref.get('year', '')`
returns that value and the f-string renders an unresolved year as the
literal text `None`. -/
def synthYearText (year : Option Nat) : String :=
  match year with
  | some y => toString y
  | none => "None"

def synthStopWords : List String :=
  ["the", "a", "an", "of", "in", "on", "for", "and", "to", "from", "with"]

/-- First word of the title that is non-empty after `[^\w]` stripping and
not in the stop-word list. -/
def synthTitleWord (title : String) : String :=
  ((pySplitWs title.data).filterMap
    (fun w =>
      let wClean := String.mk (lowerChars (w.filter isWordCh))
      if ¬ (wClean = "") ∧ ¬ (wClean ∈ synthStopWords) then some wClean else none)).headD ""

/-- The title text the synthetic key draws from: declared title, else venue. -/
def synthTitleSource (ref : HtmlRef) : String :=
  if ¬ (ref.title = "") then ref.title else ref.venue

/-- `_make_synthetic_key` (its `chapter_slug` argument is unused). -/
def makeSyntheticKey (ref : HtmlRef) : String :=
  synthSurname ref.authorsRaw ++ synthYearText ref.year
    ++ synthTitleWord (synthTitleSource ref)

/-- The synthesized-key format as the specification words it
(`<surname><year><firstcontentword>`): the year slot carries the digits of
the resolved year and nothing when no year was resolved.  Kept for
comparison with `makeSyntheticKey`. -/
def syntheticKeySpecForm (ref : HtmlRef) : String :=
  synthSurname ref.authorsRaw
    ++ (match ref.year with | some y => toString y | none => "")
    ++ synthTitleWord (synthTitleSource ref)

/-- Does `\s*\d{4}\s*\.?\s*$` match this entire suffix? -/
def trailingYearSuffix (s : List Char) : Bool :=
  match s.dropWhile isPySpace with
  | c1 :: c2 :: c3 :: c4 :: rest =>
    if isDigitCh c1 ∧ isDigitCh c2 ∧ isDigitCh c3 ∧ isDigitCh c4 then
      let rest2 := rest.dropWhile isPySpace
      let rest3 := match rest2 with
        | '.' :: r => r
        | r => r
      (rest3.dropWhile isPySpace).isEmpty
    else false
  | _ => false

def findYearCutAux : List Char → Nat → Option Nat
  | [], i => if trailingYearSuffix [] then some i else none
  | c :: r, i =>
    if trailingYearSuffix (c :: r) then some i
    else findYearCutAux r (i + 1)

/-- `re.sub(r'\s*\d{4}\s*\.?\s*$', '', s)`: cut the earliest suffix match. -/
def cutTrailingYear (l : List Char) : List Char :=
  match findYearCutAux l 0 with
  | some i => l.take i
  | none => l

/-- `_make_synthetic_entry`. -/
def makeSyntheticEntry (ref : HtmlRef) : Fields :=
  let authorsClean := pyStrip (String.mk (cutTrailingYear ref.authorsRaw.data))
  let entry : Fields :=
    [("author", authorsClean),
     ("title", ref.title),
     ("year", match ref.year with
              | some y => if y = 0 then "" else toString y
              | none => ""),
     ("url", ref.url),
     ("_type", "misc")]
  if ¬ (ref.venue = "") then aset entry "journal" ref.venue else entry

/-! ## `build_ref_db.py`: the database builder -/

/-- JSON values, the contents of the persisted stores. -/
inductive JVal where
  | null
  | str (s : String)
  | num (n : Int)
  | arr (xs : List JVal)
  | obj (fields : List (String × JVal))

/-- A persisted record: field name → JSON value. -/
abbrev JRec := PyDict String JVal

/-- A persisted store: key → record. -/
abbrev JStore := PyDict String JRec

/-- The year stored in a reference record: the first four consecutive
digits of a truthy `year` field; `None` stays for an absent field or a
failed parse, and a falsy `''` field value is stored unchanged. -/
def refYearVal (entry : Fields) : JVal :=
  match aget entry "year" with
  | none => JVal.null
  | some y =>
    if y = "" then JVal.str ""
    else match firstFourDigits y.data with
      | some n => JVal.num n
      | none => JVal.null

/-- `re.sub(r'^https?://doi\.org/', '', doi)`. -/
def stripDoiPrefix (s : String) : String :=
  let l := s.data
  if ("https://doi.org/".data).isPrefixOf l then String.mk (l.drop 16)
  else if ("http://doi.org/".data).isPrefixOf l then String.mk (l.drop 15)
  else s

/-- The URL stored in a reference record: the `url` field, a `\url{...}`
in `howpublished`, the first HTML URL captured for the key, then a
DOI-derived URL; null when every source is empty. -/
def refUrlVal (entry : Fields) (htmlUrls : PyDict String String) (key : String) : JVal :=
  let u := bibUrlOf entry
  let u := if ¬ (u = "") then u
    else match aget htmlUrls key with
      | some hu => hu
      | none => ""
  let u := if ¬ (u = "") then u
    else
      let doi := agetD entry "doi" ""
      if ¬ (doi = "") then "https://doi.org/" ++ stripDoiPrefix (pyStrip doi)
      else ""
  if u = "" then JVal.null else JVal.str u

/-- `entry.get('doi', None) or None`. -/
def refDoiVal (entry : Fields) : JVal :=
  match aget entry "doi" with
  | some d => if d = "" then JVal.null else JVal.str d
  | none => JVal.null

def optStrVal : Option String → JVal
  | some s => JVal.str s
  | none => JVal.null

/-- Title stored in a reference record (falling back to `journal`). -/
def refTitleVal (entry : Fields) : JVal :=
  let t := agetD entry "title" ""
  let t := if t = "" then agetD entry "journal" "" else t
  JVal.str (cleanLatex t)

/-- The author-key list stored in a reference record. -/
def refAuthorKeys (nfd : String → String) (entry : Fields) : List String :=
  (parseBibAuthors (agetD entry "author" "")).map (fun fl => makeAuthorKey nfd fl.1 fl.2)

/-- The eight builder-authoritative fields written by `base.update({...})`. -/
def authFields (nfd : String → String) (entry : Fields)
    (htmlUrls : PyDict String String) (key : String) : List (String × JVal) :=
  [("title", refTitleVal entry),
   ("authors", JVal.arr ((refAuthorKeys nfd entry).map JVal.str)),
   ("year", refYearVal entry),
   ("venue", optStrVal (bibVenue entry)),
   ("venueShort", optStrVal (bibVenueShort entry)),
   ("url", refUrlVal entry htmlUrls key),
   ("doi", refDoiVal entry),
   ("type", JVal.str (classifyBibType entry))]

/-- Per-record merge: start from the prior record when one exists,
overwrite the eight builder fields, and initialize `screenshot` to null
exactly when the field is absent from the result. -/
def mergeRecord (existing : Option JRec) (fs : List (String × JVal)) : JRec :=
  let base := (existing.getD []: JRec)
  let base := asetAll base fs
  if (aget base "screenshot").isSome then base else aset base "screenshot" JVal.null

/-- The `references.json` construction loop. -/
def buildReferences (nfd : String → String) (existingRefs : JStore)
    (allMatches : BibDB) (htmlUrls : PyDict String String) : JStore :=
  allMatches.foldl
    (fun refs kv =>
      aset refs kv.1 (mergeRecord (aget existingRefs kv.1) (authFields nfd kv.2 htmlUrls kv.1)))
    []

/-- The author pairs the builder walks, in loop order. -/
def authorSeq (allMatches : BibDB) : List (String × String) :=
  allMatches.foldr (fun kv acc => parseBibAuthors (agetD kv.2 "author" "") ++ acc) []

/-- A single author merge: an existing record keeps every enrichment field
and only refreshes `displayName`; a new record starts with null
enrichment. -/
def mergeAuthor (existing : Option JRec) (first last : String) : JRec :=
  match existing with
  | some rec0 => aset rec0 "displayName" (JVal.str (makeDisplayName first last))
  | none =>
      [("displayName", JVal.str (makeDisplayName first last)),
       ("affiliation", JVal.null),
       ("headshot", JVal.null),
       ("links", JVal.obj [])]

/-- The `authors.json` construction loop: first occurrence of each
non-empty key wins. -/
def buildAuthorsAux (nfd : String → String) (existingAuthors : JStore) :
    List (String × String) → JStore → JStore
  | [], authors => authors
  | (first, last) :: rest, authors =>
    let akey := makeAuthorKey nfd first last
    if ¬ (akey = "") ∧ (aget authors akey).isNone then
      buildAuthorsAux nfd existingAuthors rest
        (aset authors akey (mergeAuthor (aget existingAuthors akey) first last))
    else buildAuthorsAux nfd existingAuthors rest authors

def buildAuthors (nfd : String → String) (existingAuthors : JStore)
    (allMatches : BibDB) : JStore :=
  buildAuthorsAux nfd existingAuthors (authorSeq allMatches) []

/-- State threaded through the chapter/reference matching loops of
`build_databases`. -/
structure MPState where
  chapterMap : PyDict String (PyDict Nat String)
  allMatches : BibDB
  htmlUrls : PyDict String String
deriving Repr

/-- Per-reference step of the chapter loop: record the mapping, stash the
matched (or synthesized) entry, and capture the first HTML URL per key. -/
def mpProcessRef (bib : BibDB) (idx : MatchIndices) (slug : String)
    (st : MPState) (ref : HtmlRef) : MPState :=
  match (matchRef bib idx ref).1 with
  | some bibKey =>
    let cmSlug := aset (agetD st.chapterMap slug []) ref.num bibKey
    let st' := { st with chapterMap := aset st.chapterMap slug cmSlug,
                         allMatches := aset st.allMatches bibKey ((aget bib bibKey).getD []) }
    if ¬ (ref.url = "") ∧ (aget st'.htmlUrls bibKey).isNone then
      { st' with htmlUrls := aset st'.htmlUrls bibKey ref.url }
    else st'
  | none =>
    let synthKey := makeSyntheticKey ref
    let cmSlug := aset (agetD st.chapterMap slug []) ref.num synthKey
    { st with chapterMap := aset st.chapterMap slug cmSlug,
              allMatches := aset st.allMatches synthKey (makeSyntheticEntry ref) }

def mpProcessChapter (bib : BibDB) (idx : MatchIndices) (st : MPState)
    (ch : String × List HtmlRef) : MPState :=
  let st' := { st with chapterMap := aset st.chapterMap ch.1 [] }
  ch.2.foldl (mpProcessRef bib idx ch.1) st'

/-- The matching phase of `build_databases`: all chapters in declared
order.  Local reference numbers are the (stringified-in-JSON) integer keys
of the chapter map. -/
def matchPhase (chapters : List (String × List HtmlRef)) (bib : BibDB) : MPState :=
  let idx := buildIndices bib
  chapters.foldl (mpProcessChapter bib idx) ⟨[], [], []⟩

/-- `build_databases` over parsed inputs: chapters (slug × parsed
reference entries), the parsed bibliography, and the prior persisted
stores; HTML parsing and file I/O sit upstream and downstream of this
core. -/
def buildDatabases (nfd : String → String) (chapters : List (String × List HtmlRef))
    (bib : BibDB) (priorRefs priorAuthors : JStore) :
    PyDict String (PyDict Nat String) × JStore × JStore :=
  let mp := matchPhase chapters bib
  (mp.chapterMap,
   buildReferences nfd priorRefs mp.allMatches mp.htmlUrls,
   buildAuthors nfd priorAuthors mp.allMatches)

/-! ## `dedup_refs.py`: the dedup & renumber engine -/

/-- `build_redirect_map` part 1: group local numbers by key
(`setdefault(key, []).append(num)` over the chapter-map items). -/
def keyToNums (cme : List (Nat × String)) : PyDict String (List Nat) :=
  cme.foldl (fun d nk => aset d nk.2 (agetD d nk.2 [] ++ [nk.1])) []

/-- `min(nums)` of a non-empty list (0 on the unreachable empty list). -/
def pyMinList : List Nat → Nat
  | [] => 0
  | x :: xs => xs.foldl Nat.min x

def pyMaxList : List Nat → Nat
  | [] => 0
  | x :: xs => xs.foldl Nat.max x

/-- `build_redirect_map` part 2: for every key with more than one local
number, every non-minimal number redirects to the minimum and is marked
for removal.  The removal set is modelled as a list used only through
membership. -/
def buildRedirectMap (cme : List (Nat × String)) : PyDict Nat Nat × List Nat :=
  (keyToNums cme).foldl
    (fun st kv =>
      if 1 < kv.2.length then
        let canonical := pyMinList kv.2
        kv.2.foldl
          (fun st2 n =>
            if ¬ (n = canonical) then (aset st2.1 n canonical, st2.2 ++ [n])
            else st2)
          st
      else st)
    ([], [])

def insertSortedNat (n : Nat) : List Nat → List Nat
  | [] => [n]
  | m :: rest => if n ≤ m then n :: m :: rest else m :: insertSortedNat n rest

/-- `sorted` on numbers (any sort produces Python's output on the distinct
values this is applied to). -/
def sortNats (l : List Nat) : List Nat := l.foldr insertSortedNat []

/-- `{old: new for new, old in enumerate(remaining, 1)}`. -/
def renumFrom : Nat → List Nat → PyDict Nat Nat
  | _, [] => []
  | i, n :: rest => (n, i) :: renumFrom (i + 1) rest

/-- `build_renumber_map`. -/
def buildRenumberMap (allNums : List Nat) (toRemove : List Nat) : PyDict Nat Nat :=
  let remaining := sortNats ((allNums.filter (fun n => ¬ (n ∈ toRemove))).dedup)
  renumFrom 1 remaining

/-- The combined old-number → final-number map of `process_chapter`
(redirect to the canonical number when redirected, then renumber); the
renumber lookups cannot miss on reachable inputs, modelled by a 0
default. -/
def finalMapOf (allNums : List Nat) (redirects renumber : PyDict Nat Nat) :
    PyDict Nat Nat :=
  allNums.foldl
    (fun fm n =>
      match aget redirects n with
      | some canonical => aset fm n (agetD renumber canonical 0)
      | none => aset fm n (agetD renumber n 0))
    []

/-- `process_chapter`'s full old → final mapping for one chapter-map
fragment. -/
def chapterFinalMap (cme : List (Nat × String)) : PyDict Nat Nat :=
  let rm := buildRedirectMap cme
  let allNums := cme.map Prod.fst
  finalMapOf allNums rm.1 (buildRenumberMap allNums rm.2)

/-- Step 3 of `process_chapter` at marker level: each `#ref-N` citation is
rewritten to `final_map[N]`, and left alone when `N` is not in the map. -/
def rewriteCitations (cme : List (Nat × String)) (markers : List Nat) : List Nat :=
  markers.map (fun n => agetD (chapterFinalMap cme) n n)

/-- The local numbers whose reference-list entries remain after step 4
(everything not marked removed), in document order. -/
def keptNums (cme : List (Nat × String)) : List Nat :=
  (cme.map Prod.fst).filter (fun n => ¬ (n ∈ (buildRedirectMap cme).2))

/-! ## `build_ref_db.py`: `parse_bibtex` -/

def searchEntryOpenAux (text : List Char) : Nat → Nat → Option (String × Nat)
  | 0, _ => none
  | fuel + 1, pos =>
    if pos < text.length then
      if text.get? pos = some '@' then
        let w := (text.drop (pos + 1)).takeWhile isWordCh
        if w.isEmpty then searchEntryOpenAux text fuel (pos + 1)
        else
          let j := pos + 1 + w.length
          let ws := (text.drop j).takeWhile isPySpace
          if text.get? (j + ws.length) = some '{' then
            some (String.mk (lowerChars w), j + ws.length + 1)
          else searchEntryOpenAux text fuel (pos + 1)
      else searchEntryOpenAux text fuel (pos + 1)
    else none

/-- Leftmost match of `@(\w+)\s*\{` at or after `pos`: the lower-cased
type word and the index just past the opening brace (the fuel covers the
whole scan range). -/
def searchEntryOpen (text : List Char) (pos : Nat) : Option (String × Nat) :=
  searchEntryOpenAux text (text.length + 1) pos

def findCharFromAux (text : List Char) (c : Char) : Nat → Nat → Option Nat
  | 0, _ => none
  | fuel + 1, pos =>
    if pos < text.length then
      if text.get? pos = some c then some pos else findCharFromAux text c fuel (pos + 1)
    else none

/-- `text.find(c, pos)`. -/
def findCharFrom (text : List Char) (c : Char) (pos : Nat) : Option Nat :=
  findCharFromAux text c (text.length + 1) pos

def braceScanAux (text : List Char) : Nat → Nat → Nat → Nat
  | 0, i, _ => i
  | fuel + 1, i, depth =>
    if i < text.length ∧ 0 < depth then
      let d2 := if text.get? i = some '{' then depth + 1
                else if text.get? i = some '}' then depth - 1
                else depth
      braceScanAux text fuel (i + 1) d2
    else i

/-- Brace-depth-aware scan from `i` at `depth`; returns the index just past
the closing brace (or the text length when unbalanced). -/
def braceScan (text : List Char) (i depth : Nat) : Nat :=
  braceScanAux text (text.length + 1) i depth

/-- `text[a:b]`. -/
def sliceChars (text : List Char) (a b : Nat) : List Char :=
  (text.drop a).take (b - a)

/-- The separator characters `' \t\n\r,'` skipped between fields. -/
def isFieldSep (c : Char) : Bool :=
  c = ' ' || c = '\t' || c = '\n' || c = '\r' || c = ','

def skipFieldSep (body : List Char) (i : Nat) : Nat :=
  i + ((body.drop i).takeWhile isFieldSep).length

/-- `re.match(r'(\w+)\s*=\s*', body[i:])`: the lower-cased field name and
the index after the match. -/
def matchFieldEq (body : List Char) (i : Nat) : Option (String × Nat) :=
  let w := (body.drop i).takeWhile isWordCh
  if w.isEmpty then none
  else
    let j := i + w.length
    let ws := (body.drop j).takeWhile isPySpace
    if body.get? (j + ws.length) = some '=' then
      let j2 := j + ws.length + 1
      let ws2 := (body.drop j2).takeWhile isPySpace
      some (String.mk (lowerChars w), j2 + ws2.length)
    else none

/-- `_parse_bib_fields`: brace-delimited, quote-delimited and bare values;
the scan position strictly increases, so fuel `body.length + 1` is never
exhausted when the loop starts with it. -/
def parseFieldsLoop (body : List Char) : Nat → Nat → Fields → Fields
  | 0, _, fields => fields
  | fuel + 1, i0, fields =>
    let i := skipFieldSep body i0
    if body.length ≤ i then fields
    else match matchFieldEq body i with
      | none => parseFieldsLoop body fuel (i + 1) fields
      | some (name, j) =>
        if body.length ≤ j then fields
        else if body.get? j = some '{' then
          let e := braceScan body (j + 1) 1
          parseFieldsLoop body fuel e
            (aset fields name (pyStrip (String.mk (sliceChars body (j + 1) (e - 1)))))
        else if body.get? j = some '"' then
          match findCharFrom body '"' (j + 1) with
          | some q =>
            parseFieldsLoop body fuel (q + 1)
              (aset fields name (pyStrip (String.mk (sliceChars body (j + 1) q))))
          | none =>
            parseFieldsLoop body fuel (body.length + 1)
              (aset fields name (pyStrip (String.mk (sliceChars body (j + 1) body.length))))
        else
          let bare := (body.drop j).takeWhile (fun c => ¬ (isPySpace c || c = ',' || c = '}'))
          if bare.isEmpty then parseFieldsLoop body fuel (j + 1) fields
          else
            parseFieldsLoop body fuel (j + bare.length)
              (aset fields name (pyStrip (String.mk bare)))

def parseBibFields (body : List Char) : Fields :=
  parseFieldsLoop body (body.length + 1) 0 []

/-- The entry loop of `parse_bibtex`: find `@type{`, take the key up to the
first comma anywhere after it (stopping the whole parse when no comma
remains), brace-scan for the body, store the fields under the key, and
continue past the body. -/
def parseBibLoop (text : List Char) : Nat → Nat → BibDB → BibDB
  | 0, _, entries => entries
  | fuel + 1, pos, entries =>
    match searchEntryOpen text pos with
    | none => entries
    | some tys =>
      match findCharFrom text ',' tys.2 with
      | none => entries
      | some comma =>
        let key := pyStrip (String.mk (sliceChars text tys.2 comma))
        let i := braceScan text (comma + 1) 1
        let fields := aset (parseBibFields (sliceChars text (comma + 1) (i - 1))) "_type" tys.1
        parseBibLoop text fuel i (aset entries key fields)

/-- `parse_bibtex`. -/
def parseBibtex (s : String) : BibDB :=
  parseBibLoop s.data (s.data.length + 1) 0 []

/-! ## `audit_refs.py`: the integrity auditor -/

/-- The structured sub-fields `CitationExtractor` keeps per entry. -/
structure AuditRef where
  authors : String
  title : String
  venue : String
  url : String
deriving DecidableEq, Repr

/-- One parsed document as the auditor sees it: citation-marker numbers in
document order (their line numbers are never used by the checks),
reference-list entry numbers, and per-entry sub-fields. -/
structure AuditChapter where
  citations : List Nat
  refEntries : List Nat
  refData : PyDict Nat AuditRef
deriving DecidableEq, Repr

/-- Python truthiness of a (possibly absent) JSON value. -/
def jvalTruthy : Option JVal → Bool
  | none => false
  | some JVal.null => false
  | some (JVal.str s) => ¬ (s = "")
  | some (JVal.num n) => ¬ (n = 0)
  | some (JVal.arr xs) => ¬ xs.isEmpty
  | some (JVal.obj fs) => ¬ fs.isEmpty

/-- `ref.get(field, '') or ''` for string-valued fields. -/
def jvalToStrD : Option JVal → String
  | some (JVal.str s) => s
  | _ => ""

/-- The string elements of `ref.get('authors', [])`. -/
def jvalStrList : Option JVal → List String
  | some (JVal.arr xs) =>
    xs.filterMap (fun v => match v with | JVal.str s => some s | _ => none)
  | _ => []

def charListLe : List Char → List Char → Bool
  | [], _ => true
  | _ :: _, [] => false
  | a :: as, b :: bs => if a = b then charListLe as bs else decide (a < b)

def insertSortedStr (s : String) : List String → List String
  | [] => [s]
  | t :: rest => if charListLe s.data t.data then s :: t :: rest else t :: insertSortedStr s rest

/-- `sorted` on strings (code-point lexicographic, as in Python). -/
def sortStrs (l : List String) : List String := l.foldr insertSortedStr []

/-- `sorted(set(...))` on numbers. -/
def sortedSetNats (l : List Nat) : List Nat := sortNats l.dedup

/-- Python `repr` of a list of strings, as interpolated into the
cross-chapter message. -/
def listRepr (l : List String) : String :=
  "[" ++ String.intercalate ", " (l.map (fun s => "\x27" ++ s ++ "\x27")) ++ "]"

/-- `re.sub(r'^https?://(www\.)?', '', url)`: the protocol and, only
together with it, a leading `www.`. -/
def auditUrlNorm (s : String) : String :=
  let l := s.data
  let l2 := if ("https://".data).isPrefixOf l then some (l.drop 8)
            else if ("http://".data).isPrefixOf l then some (l.drop 7)
            else none
  match l2 with
  | some rest => String.mk (dropPrefixIf "www.".data rest)
  | none => s

/-- The lowered comparison form of a URL in audit check 6. -/
def auditUrlCmp (s : String) : String :=
  pyLower (String.mk (rstripChar '/' (auditUrlNorm s).data))

/-- `url[:60]`. -/
def truncate60 (s : String) : String := String.mk (s.data.take 60)

/-- Per-chapter checks 1-6 of `run_audit`: returns the error messages,
warning messages, referenced record keys, and referenced author keys this
chapter contributes, each in emission order. -/
def auditChapter (references : JStore) (cm : PyDict Nat String) (slug : String)
    (ch : AuditChapter) : List String × List String × List String × List String :=
  let citedNums := ch.citations.dedup
  let entryNums := ch.refEntries.dedup
  let cmNums := (cm.map Prod.fst).dedup
  let errs1 := (sortedSetNats (citedNums.filter (fun n => ¬ (n ∈ entryNums)))).map
    (fun n => "ERROR: " ++ slug ++ ": citation #ref-" ++ toString n
      ++ " has no <li id=\"ref-" ++ toString n ++ "\"> in reference list")
  let warns1 := (sortedSetNats (entryNums.filter (fun n => ¬ (n ∈ citedNums)))).map
    (fun n => "WARN:  " ++ slug ++ ": ref-" ++ toString n
      ++ " exists in reference list but is never cited in text")
  let warns2 :=
    if ¬ entryNums.isEmpty then
      ((List.range' 1 (pyMaxList entryNums)).filter (fun n => ¬ (n ∈ entryNums))).map
        (fun n => "WARN:  " ++ slug ++ ": ref-" ++ toString n
          ++ " is missing from reference list (gap in numbering)")
    else []
  let errs2 := (sortedSetNats (entryNums.filter (fun n => ¬ (n ∈ cmNums)))).map
    (fun n => "ERROR: " ++ slug ++ ": ref-" ++ toString n
      ++ " exists in HTML but missing from chapter-map.json")
  let errs3 := (sortedSetNats (cmNums.filter (fun n => ¬ (n ∈ entryNums)))).map
    (fun n => "ERROR: " ++ slug ++ ": ref-" ++ toString n
      ++ " in chapter-map.json but no <li> in HTML")
  let errs4 := cm.foldr
    (fun nk acc =>
      if (aget references nk.2).isNone then
        ("ERROR: " ++ slug ++ ": ref-" ++ toString nk.1 ++ " maps to \x27" ++ nk.2
          ++ "\x27 which is missing from references.json") :: acc
      else acc)
    []
  let step6 := (sortedSetNats entryNums).foldl
    (fun (acc : List String × List String) n =>
      match aget cm n with
      | none => acc
      | some bibKey =>
        if bibKey = "" then acc
        else match aget references bibKey with
          | none => acc
          | some refJson =>
            let htmlUrl := match aget ch.refData n with
              | some rd => rd.url
              | none => ""
            let jsonUrl := jvalToStrD (aget refJson "url")
            let ws :=
              if ¬ (htmlUrl = "") ∧ ¬ (jsonUrl = "") then
                let hn := auditUrlCmp htmlUrl
                let jn := auditUrlCmp jsonUrl
                if ¬ (hn = jn) ∧ ¬ (strIn hn jn) ∧ ¬ (strIn jn hn) then
                  ["WARN:  " ++ slug ++ "/ref-" ++ toString n ++ ": URL mismatch — HTML has "
                    ++ truncate60 htmlUrl ++ " vs JSON has " ++ truncate60 jsonUrl]
                else []
              else []
            (acc.1 ++ ws, acc.2 ++ jvalStrList (aget refJson "authors")))
    ([], [])
  (errs1 ++ errs2 ++ errs3 ++ errs4,
   warns1 ++ warns2 ++ step6.1,
   cm.map Prod.snd,
   step6.2)

/-- `run_audit` over parsed chapters and the three loaded stores: the two
ordered message lists (errors, warnings). -/
def runAudit (chapters : List (String × AuditChapter))
    (chapterMap : PyDict String (PyDict Nat String))
    (references authors : JStore) : List String × List String :=
  let per := chapters.map
    (fun ch => auditChapter references (agetD chapterMap ch.1 []) ch.1 ch.2)
  let chapErrs := (per.map (fun t => t.1)).flatten
  let chapWarns := (per.map (fun t => t.2.1)).flatten
  let refKeys := (per.map (fun t => t.2.2.1)).flatten
  let authKeys := (per.map (fun t => t.2.2.2)).flatten
  let missingTitle := references.filterMap
    (fun kv => if ¬ jvalTruthy (aget kv.2 "title") then some kv.1 else none)
  let missingYear := references.filterMap
    (fun kv => if ¬ jvalTruthy (aget kv.2 "year") then some kv.1 else none)
  let missingAuthors := references.filterMap
    (fun kv => if ¬ jvalTruthy (aget kv.2 "authors") then some kv.1 else none)
  let missingUrl := references.filterMap
    (fun kv => if ¬ jvalTruthy (aget kv.2 "url") then some kv.1 else none)
  let gErrsTitle := missingTitle.map
    (fun k => "ERROR: references.json: \x27" ++ k ++ "\x27 has no title")
  let gWarnsYear := missingYear.map
    (fun k => "WARN:  references.json: \x27" ++ k ++ "\x27 has no year")
  let gWarnsAuthors := missingAuthors.map
    (fun k => "WARN:  references.json: \x27" ++ k ++ "\x27 has no authors")
  let gWarnsUrl := (missingUrl.take 10).map
    (fun k => "WARN:  references.json: \x27" ++ k ++ "\x27 has no URL")
  let gWarnsUrl := gWarnsUrl ++
    (if 10 < missingUrl.length then
      ["WARN:    ...and " ++ toString (missingUrl.length - 10) ++ " more without URLs"]
    else [])
  let gWarnsOrphan := (sortStrs (((references.map Prod.fst).dedup).filter
      (fun k => ¬ (k ∈ refKeys)))).map
    (fun k => "WARN:  references.json: \x27" ++ k ++ "\x27 is not referenced by any chapter")
  let gErrsDisplay := (authors.filterMap
      (fun kv => if ¬ jvalTruthy (aget kv.2 "displayName") then some kv.1 else none)).map
    (fun k => "ERROR: authors.json: \x27" ++ k ++ "\x27 has no displayName")
  let keyToChapters : PyDict String (List String) := chapters.foldl
    (fun d ch =>
      (agetD chapterMap ch.1 []).foldl
        (fun d2 nk =>
          aset d2 nk.2 (agetD d2 nk.2 [] ++ [ch.1 ++ "/ref-" ++ toString nk.1]))
        d)
    []
  let gWarnsCross := keyToChapters.filterMap
    (fun kv =>
      if 1 < kv.2.length ∧ ¬ jvalTruthy (aget (agetD references kv.1 []) "title") then
        some ("WARN:  Cross-chapter ref \x27" ++ kv.1 ++ "\x27 (in " ++ listRepr kv.2
          ++ ") has no title in JSON")
      else none)
  let _ := authKeys
  (chapErrs ++ gErrsTitle ++ gErrsDisplay,
   chapWarns ++ gWarnsYear ++ gWarnsAuthors ++ gWarnsUrl ++ gWarnsOrphan ++ gWarnsCross)

/-- `run_audit`'s return value `(len(issues), len(warnings))`. -/
def runAuditCounts (chapters : List (String × AuditChapter))
    (chapterMap : PyDict String (PyDict Nat String))
    (references authors : JStore) : Nat × Nat :=
  let r := runAudit chapters chapterMap references authors
  (r.1.length, r.2.length)

/-- The process completion status `sys.exit(1 if errors else 0)`. -/
def auditExitCode (chapters : List (String × AuditChapter))
    (chapterMap : PyDict String (PyDict Nat String))
    (references authors : JStore) : Nat :=
  if ¬ ((runAuditCounts chapters chapterMap references authors).1 = 0) then 1 else 0

/-! ## Generic lemmas about the store-building folds -/

theorem aget_foldkv_not_mem {κ ν β : Type} [DecidableEq κ] (ms : List (κ × β))
    (g : κ × β → ν) (acc : PyDict κ ν) (k : κ) (h : k ∉ ms.map Prod.fst) :
    aget (ms.foldl (fun d kv => aset d kv.1 (g kv)) acc) k = aget acc k := by
  induction ms generalizing acc with
  | nil => rfl
  | cons hd tl ih =>
    rw [List.map_cons] at h
    have h1 : ¬ (k = hd.1) := fun he => h (by rw [he]; exact List.mem_cons_self _ _)
    have h2 : k ∉ tl.map Prod.fst := fun hm => h (List.mem_cons_of_mem _ hm)
    simp only [List.foldl_cons]
    rw [ih _ h2, aget_aset_ne _ _ _ _ h1]

theorem aget_foldkv_isSome {κ ν β : Type} [DecidableEq κ] (ms : List (κ × β))
    (g : κ × β → ν) (acc : PyDict κ ν) (k : κ) :
    (aget (ms.foldl (fun d kv => aset d kv.1 (g kv)) acc) k).isSome ↔
      k ∈ ms.map Prod.fst ∨ (aget acc k).isSome := by
  induction ms generalizing acc with
  | nil => simp
  | cons hd tl ih =>
    simp only [List.foldl_cons, List.map_cons, List.mem_cons]
    rw [ih]
    by_cases hk : k = hd.1
    · subst hk
      rw [aget_aset_self]
      simp
    · rw [aget_aset_ne _ _ _ _ hk]
      tauto

theorem aget_foldkv_mem {κ ν β : Type} [DecidableEq κ] (ms : List (κ × β))
    (g : κ × β → ν) (acc : PyDict κ ν) (k : κ) (e : β)
    (hnd : NodupKeys ms) (h : (k, e) ∈ ms) :
    aget (ms.foldl (fun d kv => aset d kv.1 (g kv)) acc) k = some (g (k, e)) := by
  induction ms generalizing acc with
  | nil => simp at h
  | cons hd tl ih =>
    simp only [NodupKeys, akeys, List.map_cons, List.nodup_cons] at hnd
    simp only [List.foldl_cons]
    rcases List.mem_cons.1 h with hc | hc
    · have hk : k = hd.1 := by rw [← hc]
      have hnot : k ∉ tl.map Prod.fst := hk ▸ hnd.1
      rw [aget_foldkv_not_mem _ _ _ _ hnot, hk, aget_aset_self, ← hc]
    · exact ih _ hnd.2 hc

theorem nodupKeys_foldkv {κ ν β : Type} [DecidableEq κ] (ms : List (κ × β))
    (g : κ × β → ν) (acc : PyDict κ ν) (h : NodupKeys acc) :
    NodupKeys (ms.foldl (fun d kv => aset d kv.1 (g kv)) acc) := by
  induction ms generalizing acc with
  | nil => exact h
  | cons hd tl ih => exact ih _ (nodupKeys_aset _ _ _ h)

/-! ## Claim C10 — the output references store holds exactly this run's keys -/

/-- C10: after a build, the key set of the output references store is
exactly the key set of this run's matched-or-synthesized entries
(`all_matches`); a prior record whose key no current document matches is
absent from the output (its enrichment is not carried anywhere). -/
theorem references_keys_are_current_matches (nfd : String → String)
    (chapters : List (String × List HtmlRef)) (bib : BibDB)
    (priorRefs priorAuthors : JStore) (k : String) :
    ((aget (buildDatabases nfd chapters bib priorRefs priorAuthors).2.1 k).isSome ↔
      k ∈ akeys (matchPhase chapters bib).allMatches)
    ∧ ((aget priorRefs k).isSome →
        k ∉ akeys (matchPhase chapters bib).allMatches →
        aget (buildDatabases nfd chapters bib priorRefs priorAuthors).2.1 k = none) := by
  have hmain : (aget (buildDatabases nfd chapters bib priorRefs priorAuthors).2.1 k).isSome ↔
      k ∈ akeys (matchPhase chapters bib).allMatches := by
    show (aget (buildReferences nfd priorRefs (matchPhase chapters bib).allMatches
        (matchPhase chapters bib).htmlUrls) k).isSome ↔ _
    rw [buildReferences, aget_foldkv_isSome]
    simp [aget, akeys]
  refine ⟨hmain, fun _ hnot => ?_⟩
  rcases h2 : aget (buildDatabases nfd chapters bib priorRefs priorAuthors).2.1 k with _ | v
  · rfl
  · exact absurd (hmain.1 (by rw [h2]; rfl)) hnot

/-- C10 witness: a one-chapter build in which the prior store's stale key
`old2019gone` (with a screenshot enrichment) is matched by no document and
vanishes from the output, while the matched key stays. -/
theorem references_keys_are_current_matches_witness :
    aget (buildDatabases (fun s => s)
        [("ch", [⟨1, "", "", "", "http://x.com", none, ""⟩])]
        [("kept", [("title", "T"), ("url", "http://x.com")])]
        [("old2019gone", [("screenshot", JVal.str "shot.png")])] []).2.1 "old2019gone" = none
    ∧ ((aget (buildDatabases (fun s => s)
        [("ch", [⟨1, "", "", "", "http://x.com", none, ""⟩])]
        [("kept", [("title", "T"), ("url", "http://x.com")])]
        [("old2019gone", [("screenshot", JVal.str "shot.png")])] []).2.1 "kept").isSome = true) := by
  constructor
  · exact (references_keys_are_current_matches (fun s => s)
      [("ch", [⟨1, "", "", "", "http://x.com", none, ""⟩])]
      [("kept", [("title", "T"), ("url", "http://x.com")])]
      [("old2019gone", [("screenshot", JVal.str "shot.png")])] [] "old2019gone").2
      (by decide) (by decide)
  · decide

/-! ## Claim C1 — identifier-match stage and arXiv URL forms -/

/-- C1 counterexample: the identifier extractor recognizes only `/abs/`
paths, so for a canonical record with URL `https://arxiv.org/abs/2301.00001`
and an entry with the `/pdf/` form of the same identifier, the matcher does
not resolve the entry at all (no identifier-stage match, contrary to the
claim that stage 2 extracts from both `/abs/` and `/pdf/` paths). -/
theorem arxiv_pdf_form_not_identifier_matched :
    extractArxivId "https://arxiv.org/pdf/2301.00001" = none
    ∧ extractArxivId "https://arxiv.org/abs/2301.00001" = some "2301.00001"
    ∧ (matchRefsToBib [⟨1, "", "", "", "https://arxiv.org/pdf/2301.00001", none, ""⟩]
        [("someref", [("url", "https://arxiv.org/abs/2301.00001"),
                      ("title", "Understanding deep learning")])]).map
        (fun t => t.2) = [(none, MatchMethod.noMatch)] := by
  refine ⟨by decide, by decide, by decide⟩

/-- C1 (amended): the identifier stage extracts a numeric identifier only
from `/abs/`-style arXiv paths — any URL on which `extract_arxiv_id`
succeeds contains the literal `arxiv.org/abs/`; `/pdf/`-form URLs yield no
identifier, so the spec's `/pdf/` example cannot be resolved by stage 2. -/
theorem extract_arxiv_id_only_abs (url : String)
    (h : (extractArxivId url).isSome = true) :
    hasSegment arxivAbsLit url.data = true := by
  have hscan : ∀ l : List Char, (arxivScan l).isSome = true → hasSegment arxivAbsLit l = true := by
    intro l
    induction l with
    | nil => intro hh; simp [arxivScan] at hh
    | cons c rest ih =>
      intro hh
      by_cases hp : arxivAbsLit.isPrefixOf (c :: rest) = true
      · simp [hasSegment, hp]
      · rw [arxivScan] at hh
        simp only [Bool.not_eq_true] at hp
        rw [if_neg (by simp [hp])] at hh
        simp [hasSegment, hp, ih hh]
  rw [extractArxivId] at h
  by_cases hu : url = ""
  · rw [if_pos hu] at h
    simp at h
  · rw [if_neg hu] at h
    exact hscan _ h

/-- C1 witness: extraction succeeds on the `/abs/` form, which indeed
contains the literal. -/
theorem extract_arxiv_id_only_abs_witness :
    (extractArxivId "https://arxiv.org/abs/2301.00001").isSome = true
    ∧ hasSegment arxivAbsLit "https://arxiv.org/abs/2301.00001".data = true :=
  ⟨by decide, extract_arxiv_id_only_abs "https://arxiv.org/abs/2301.00001" (by decide)⟩

/-! ## Claim C2 — a malformed structured entry and the rest of the file -/

/-- C2 counterexample: in
`@article{g1, title={A}} @article{bad} @book{g2, title={B}} @misc{g3, note={C}}`
the malformed entry `bad` has no comma of its own, so the scanner takes
everything up to the next comma in the file as the key — swallowing the
well-formed entry `g2`, which is absent from the output map (its fields sit
under the garbage key `bad}\n@book{g2`), contrary to the claim that every
well-formed entry after a malformed one is still parsed; only entries after
the swallowed one (`g3`) are parsed. -/
theorem malformed_entry_swallows_next :
    aget (parseBibtex
      "@article\x7bg1, title=\x7bA\x7d\x7d\n@article\x7bbad\x7d\n@book\x7bg2, title=\x7bB\x7d\x7d\n@misc\x7bg3, note=\x7bC\x7d\x7d")
      "g2" = none
    ∧ aget (parseBibtex
      "@article\x7bg1, title=\x7bA\x7d\x7d\n@article\x7bbad\x7d\n@book\x7bg2, title=\x7bB\x7d\x7d\n@misc\x7bg3, note=\x7bC\x7d\x7d")
      "g1" = some [("title", "A"), ("_type", "article")]
    ∧ aget (parseBibtex
      "@article\x7bg1, title=\x7bA\x7d\x7d\n@article\x7bbad\x7d\n@book\x7bg2, title=\x7bB\x7d\x7d\n@misc\x7bg3, note=\x7bC\x7d\x7d")
      "bad\x7d\n@book\x7bg2" = some [("title", "B"), ("_type", "article")]
    ∧ aget (parseBibtex
      "@article\x7bg1, title=\x7bA\x7d\x7d\n@article\x7bbad\x7d\n@book\x7bg2, title=\x7bB\x7d\x7d\n@misc\x7bg3, note=\x7bC\x7d\x7d")
      "g3" = some [("note", "C"), ("_type", "misc")] := by
  refine ⟨by decide, by decide, by decide, by decide⟩

/-- C2 (amended): the parser does not skip a malformed (comma-less) entry.
After finding an `@type{` opening, it takes everything up to the first
comma anywhere later in the text as the key — when that comma lies inside
the next entry, that entry is absorbed into the malformed one's record and
is not parsed under its own key — and it continues after the brace-matched
body; when no comma remains in the text, parsing stops and returns only the
entries collected so far. -/
theorem parse_bibtex_no_skip_on_malformed (text : List Char) (fuel pos : Nat)
    (entries : BibDB) (ty : String) (start : Nat)
    (hsearch : searchEntryOpen text pos = some (ty, start)) :
    (findCharFrom text ',' start = none →
      parseBibLoop text (fuel + 1) pos entries = entries)
    ∧ (∀ comma, findCharFrom text ',' start = some comma →
      parseBibLoop text (fuel + 1) pos entries =
        parseBibLoop text fuel (braceScan text (comma + 1) 1)
          (aset entries (pyStrip (String.mk (sliceChars text start comma)))
            (aset (parseBibFields
                (sliceChars text (comma + 1) (braceScan text (comma + 1) 1 - 1)))
              "_type" ty))) := by
  constructor
  · intro hnone
    simp only [parseBibLoop, hsearch, hnone]
  · intro comma hsome
    simp only [parseBibLoop, hsearch, hsome]

/-- C2 witness: one step of the loop on `@a{k},` — the opening is found at
index 3, the first comma (index 5) lies beyond the entry's closing brace,
and the step stores the garbage key `k}`. -/
theorem parse_bibtex_no_skip_on_malformed_witness :
    searchEntryOpen "@a\x7bk\x7d,".data 0 = some ("a", 3)
    ∧ findCharFrom "@a\x7bk\x7d,".data ',' 3 = some 5
    ∧ parseBibLoop "@a\x7bk\x7d,".data 8 0 [] =
        parseBibLoop "@a\x7bk\x7d,".data 7 (braceScan "@a\x7bk\x7d,".data 6 1)
          (aset [] (pyStrip (String.mk (sliceChars "@a\x7bk\x7d,".data 3 5)))
            (aset (parseBibFields
                (sliceChars "@a\x7bk\x7d,".data 6 (braceScan "@a\x7bk\x7d,".data 6 1 - 1)))
              "_type" "a")) := by
  refine ⟨by decide, by decide, ?_⟩
  exact (parse_bibtex_no_skip_on_malformed "@a\x7bk\x7d,".data 7 0 [] "a" 3 (by decide)).2
    5 (by decide)

/-! ## Claim C3 — synthesized keys for unmatched entries -/

/-- C3 counterexample: an entry with no URL and no resolved year reaches
the no-match stage, and its synthesized key renders the absent year as the
literal text `None` — `smithNonedeep` — rather than the spec's
`<surname><year><firstcontentword>` format, under which an absent year
contributes nothing (`smithdeep`). -/
theorem synthetic_key_renders_missing_year_as_None :
    makeSyntheticKey ⟨1, "Smith, J.", "Deep learning methods", "", "", none,
        "Smith, J. Deep learning methods."⟩ = "smithNonedeep"
    ∧ syntheticKeySpecForm ⟨1, "Smith, J.", "Deep learning methods", "", "", none,
        "Smith, J. Deep learning methods."⟩ = "smithdeep"
    ∧ ¬ (makeSyntheticKey ⟨1, "Smith, J.", "Deep learning methods", "", "", none,
        "Smith, J. Deep learning methods."⟩ =
      syntheticKeySpecForm ⟨1, "Smith, J.", "Deep learning methods", "", "", none,
        "Smith, J. Deep learning methods."⟩)
    ∧ (matchRefsToBib [⟨1, "Smith, J.", "Deep learning methods", "", "", none,
        "Smith, J. Deep learning methods."⟩] []).map (fun t => t.2.1) = [none]
    ∧ agetD (agetD (buildDatabases (fun s => s)
        [("ch", [⟨1, "Smith, J.", "Deep learning methods", "", "", none,
          "Smith, J. Deep learning methods."⟩])] [] [] []).1 "ch" []) 1 "" =
      "smithNonedeep" := by
  refine ⟨by decide, by decide, by decide, by decide, by decide⟩

/-- C3 (amended): the synthesized key of a no-match entry is exactly the
leading capitalized word of the author text (lower-cased, `unknown` when
absent), then the resolved year — rendered as the literal text `None` when
no year was resolved — then the first stop-word-free word of the title
(falling back to the venue); and the synthesized record's type is `misc`. -/
theorem synthetic_key_shape (ref : HtmlRef) :
    makeSyntheticKey ref =
      synthSurname ref.authorsRaw ++ synthYearText ref.year
        ++ synthTitleWord (synthTitleSource ref)
    ∧ (ref.year = none → synthYearText ref.year = "None")
    ∧ (∀ y, ref.year = some y → synthYearText ref.year = toString y)
    ∧ aget (makeSyntheticEntry ref) "_type" = some "misc" := by
  refine ⟨rfl, fun h => by rw [h]; rfl, fun y h => by rw [h]; rfl, ?_⟩
  rw [makeSyntheticEntry]
  have hbase : ∀ x1 x2 x3 x4 : String,
      aget [("author", x1), ("title", x2), ("year", x3), ("url", x4), ("_type", "misc")]
        "_type" = some "misc" := by
    intro x1 x2 x3 x4
    rw [aget_cons_neg _ _ _ _ (by decide), aget_cons_neg _ _ _ _ (by decide),
      aget_cons_neg _ _ _ _ (by decide), aget_cons_neg _ _ _ _ (by decide),
      aget_cons_pos _ _ _ _ rfl]
  by_cases hv : ref.venue = ""
  · rw [if_neg (by simp [hv])]
    exact hbase _ _ _ _
  · rw [if_pos (by simp [hv]), aget_aset_ne _ _ _ _ (by decide)]
    exact hbase _ _ _ _

/-- C3 witness. -/
theorem synthetic_key_shape_witness :
    makeSyntheticKey ⟨2, "Doe, A.", "The word embedding atlas", "", "", none, ""⟩ =
      synthSurname "Doe, A." ++ "None" ++ synthTitleWord "The word embedding atlas"
    ∧ aget (makeSyntheticEntry ⟨2, "Doe, A.", "The word embedding atlas", "", "", none, ""⟩)
        "_type" = some "misc" := by
  have h := synthetic_key_shape ⟨2, "Doe, A.", "The word embedding atlas", "", "", none, ""⟩
  exact ⟨by rw [h.1]; rfl, h.2.2.2⟩


/-! ## Claim C6 — the fuzzy title-match stage -/

theorem le_foldl_max (l : List (ℚ × String)) (s : ℚ) :
    s ≤ l.foldl (fun m p => max m p.1) s := by
  induction l generalizing s with
  | nil => exact le_refl s
  | cons p l' ih => exact le_trans (le_max_left s p.1) (ih (max s p.1))

/-- The strict-improvement fold of the fuzzy stage: its score is the
running maximum, and its key is the key of the **first** pair attaining
that maximum (an equal-scoring later pair never replaces it). -/
theorem bestFold_spec (l : List (ℚ × String)) (s : ℚ) (k : Option String) :
    (bestFold l (s, k)).1 = l.foldl (fun m p => max m p.1) s
    ∧ (¬ (s < (bestFold l (s, k)).1) → (bestFold l (s, k)).2 = k)
    ∧ (s < (bestFold l (s, k)).1 →
        ∃ p, l.find? (fun q => decide (q.1 = (bestFold l (s, k)).1)) = some p
          ∧ (bestFold l (s, k)).2 = some p.2) := by
  induction l generalizing s k with
  | nil =>
    refine ⟨rfl, fun _ => rfl, fun h => absurd h (lt_irrefl s)⟩
  | cons p l' ih =>
    by_cases h1 : s < p.1
    · have hstep : bestFold (p :: l') (s, k) = bestFold l' (p.1, some p.2) := by
        simp only [bestFold, List.foldl_cons, if_pos h1]
      obtain ⟨ihf, ihk, ihm⟩ := ih p.1 (some p.2)
      have hfst : (bestFold (p :: l') (s, k)).1 =
          (p :: l').foldl (fun m q => max m q.1) s := by
        rw [hstep, ihf, List.foldl_cons, max_eq_right (le_of_lt h1)]
      have hsbest : s < (bestFold (p :: l') (s, k)).1 := by
        rw [hstep, ihf]
        exact lt_of_lt_of_le h1 (le_foldl_max _ _)
      refine ⟨hfst, fun hc => absurd hsbest hc, fun _ => ?_⟩
      rw [hstep]
      by_cases h2 : p.1 < (bestFold l' (p.1, some p.2)).1
      · obtain ⟨q, hfind, hsnd⟩ := ihm h2
        refine ⟨q, ?_, hsnd⟩
        have hpfalse : decide (p.1 = (bestFold l' (p.1, some p.2)).1) = false := by
          simp only [decide_eq_false_iff_not]
          exact ne_of_lt h2
        rw [List.find?_cons, hpfalse]
        exact hfind
      · have heq : p.1 = (bestFold l' (p.1, some p.2)).1 := by
          refine le_antisymm ?_ (not_lt.1 h2)
          rw [ihf]
          exact le_foldl_max _ _
        refine ⟨p, ?_, ihk h2⟩
        have hptrue : decide (p.1 = (bestFold l' (p.1, some p.2)).1) = true := by
          simp only [decide_eq_true_eq]
          exact heq
        rw [List.find?_cons, hptrue]
    · have hstep : bestFold (p :: l') (s, k) = bestFold l' (s, k) := by
        simp only [bestFold, List.foldl_cons, if_neg h1]
      obtain ⟨ihf, ihk, ihm⟩ := ih s k
      have hfst : (bestFold (p :: l') (s, k)).1 =
          (p :: l').foldl (fun m q => max m q.1) s := by
        rw [hstep, ihf, List.foldl_cons, max_eq_left (not_lt.1 h1)]
      refine ⟨hfst, ?_, ?_⟩
      · intro hc
        rw [hstep]
        exact ihk (by rw [← hstep]; exact hc)
      · intro hm
        rw [hstep]
        obtain ⟨q, hfind, hsnd⟩ := ihm (by rw [hstep] at hm; exact hm)
        refine ⟨q, ?_, hsnd⟩
        have hpfalse : decide (p.1 = (bestFold l' (s, k)).1) = false := by
          simp only [decide_eq_false_iff_not]
          intro he
          rw [hstep, ← he] at hm
          exact h1 hm
        rw [List.find?_cons, hpfalse]
        exact hfind

theorem ratio_guard_iff (b r : Nat) :
    (b : ℚ) * (3 / 2) < (r : ℚ) ↔ 3 * b < 2 * r := by
  rw [← mul_div_assoc, div_lt_iff₀ (by norm_num : (0:ℚ) < 2)]
  constructor
  · intro h
    have h2 : ((3 * b : Nat) : ℚ) < ((2 * r : Nat) : ℚ) := by push_cast; linarith
    exact_mod_cast h2
  · intro h
    have h2 : ((3 * b : Nat) : ℚ) < ((2 * r : Nat) : ℚ) := by exact_mod_cast h
    push_cast at h2; linarith

/-- **C6.** In the fuzzy title-match stage: a pair whose normalized candidate
is longer than 1.5× the normalized record title, with the title over 10
characters, scores exactly 0.95 on containment and general string similarity
otherwise; the stage's best score is the maximum over all candidate fields
and records; it accepts exactly when the best score reaches 0.65, returning
the best key; and on equal scores the first-found best is kept — the winner
is the first pair in scan order attaining the maximal score. -/
theorem fuzzy_stage_scoring_and_ties (refNorm bibNorm : String)
    (cands : List String) (index : List (String × String)) :
    fuzzyScore refNorm bibNorm =
      (if (bibNorm.length : ℚ) * (3 / 2) < (refNorm.length : ℚ) ∧ 10 < bibNorm.length then
        (if strIn bibNorm refNorm = true then (19 : ℚ) / 20
         else seqRatioStr refNorm bibNorm)
       else seqRatioStr refNorm bibNorm)
    ∧ (fuzzyBest cands index).1 =
        (fuzzyPairs cands index).foldl (fun m p => max m p.1) 0
    ∧ ((13 : ℚ) / 20 ≤ (fuzzyBest cands index).1 →
        fuzzyStage cands index = (fuzzyBest cands index).2)
    ∧ (¬ (13 : ℚ) / 20 ≤ (fuzzyBest cands index).1 → fuzzyStage cands index = none)
    ∧ (0 < (fuzzyBest cands index).1 →
        ∃ p, (fuzzyPairs cands index).find?
            (fun q => decide (q.1 = (fuzzyBest cands index).1)) = some p
          ∧ (fuzzyBest cands index).2 = some p.2) := by
  have hg : ((bibNorm.length : ℚ) * (3 / 2) < (refNorm.length : ℚ) ∧ 10 < bibNorm.length)
      ↔ (3 * bibNorm.length < 2 * refNorm.length ∧ 10 < bibNorm.length) :=
    and_congr_left' (ratio_guard_iff _ _)
  have h1920 : Rat.divInt 19 20 = (19 : ℚ) / 20 := by
    rw [Rat.divInt_eq_div]; norm_num
  have h1320 : Rat.divInt 13 20 = (13 : ℚ) / 20 := by
    rw [Rat.divInt_eq_div]; norm_num
  have hfb : fuzzyBest cands index = bestFold (fuzzyPairs cands index) (0, none) := rfl
  obtain ⟨hf, hk, hm⟩ := bestFold_spec (fuzzyPairs cands index) 0 none
  have hstageEq : fuzzyStage cands index =
      if Rat.divInt 13 20 ≤ (fuzzyBest cands index).1 then (fuzzyBest cands index).2
      else none := rfl
  refine ⟨?_, ?_, ?_, ?_, ?_⟩
  · by_cases hng : 3 * bibNorm.length < 2 * refNorm.length ∧ 10 < bibNorm.length
    · simp only [fuzzyScore]
      rw [if_pos hng, if_pos (hg.mpr hng), h1920]
    · simp only [fuzzyScore]
      rw [if_neg hng, if_neg (fun hc => hng (hg.mp hc))]
  · rw [hfb]; exact hf
  · intro h
    rw [hstageEq, if_pos (by rw [h1320]; exact h)]
  · intro h
    rw [hstageEq, if_neg (fun hc => h (h1320 ▸ hc))]
  · intro h0
    rw [hfb] at h0 ⊢
    exact hm h0

/-- C6 witness: one candidate field against two records with identical
normalized titles; both pairs hit the 0.95 containment branch, the stage
accepts, and the first-indexed key wins the tie. -/
theorem fuzzy_stage_scoring_and_ties_witness :
    fuzzyStage ["the neural network model of things"]
        [("neural network model", "k1"), ("neural network model", "k2")] = some "k1"
    ∧ fuzzyScore "the neural network model of things" "neural network model" =
        (19 : ℚ) / 20 := by
  have h := fuzzy_stage_scoring_and_ties
      "the neural network model of things" "neural network model"
      ["the neural network model of things"]
      [("neural network model", "k1"), ("neural network model", "k2")]
  have hb1 : (fuzzyBest ["the neural network model of things"]
      [("neural network model", "k1"), ("neural network model", "k2")]).1 =
      Rat.divInt 19 20 := by decide
  have h1320d : (13 : ℚ) / 20 = Rat.divInt 13 20 := by
    rw [Rat.divInt_eq_div]; norm_num
  constructor
  · rw [h.2.2.1 (by rw [h1320d, hb1]; decide)]
    decide
  · rw [h.1]
    have e1 : ("neural network model").length = 20 := rfl
    have e2 : ("the neural network model of things").length = 34 := rfl
    rw [if_pos ⟨by rw [e1, e2]; norm_num, by rw [e1]; norm_num⟩, if_pos (by decide)]

/-! ## Claim C5 — the per-record merge rule -/

/-- C5 counterexample: the key "k" already exists in the prior store (its
record has a "note" field and no "screenshot" field), yet after the merge
the output record for "k" carries a "screenshot" field set to null — the
builder initializes "screenshot" whenever the field is absent from the
merged record, not only when the key is created for the first time. -/
theorem screenshot_reinitialized_for_preexisting_key :
    ((aget ([("k", [("note", JVal.str "x")])] : JStore) "k").map
        (fun r => (aget r "screenshot").isSome)) = some false
    ∧ ((aget (buildReferences (fun s => s) [("k", [("note", JVal.str "x")])]
          [("k", [("title", "T")])] []) "k").map
        (fun r => match aget r "screenshot" with
          | some JVal.null => true
          | _ => false)) = some true := by
  constructor
  · rfl
  · rfl

/-- **C5 (amended).** For every record key present both in the prior
persisted references store and in the current matches, the merged output
record is the prior record with exactly the eight builder-authoritative
fields (title, authors, year, venue, short venue, url, doi, type)
overwritten; every other field of the prior record except "screenshot" is
carried over with its value unchanged; a "screenshot" field present in the
prior record is carried over unchanged, and "screenshot" is initialized to
null whenever the prior record lacks it — not only when the key is created
for the first time. -/
theorem merge_overwrites_eight_fields_and_preserves_rest
    (nfd : String → String) (prior : JStore) (ms : BibDB)
    (urls : PyDict String String) (k : String) (e : Fields) (rec0 : JRec)
    (hnd : NodupKeys ms) (hm : (k, e) ∈ ms) (hp : aget prior k = some rec0) :
    aget (buildReferences nfd prior ms urls) k =
      some (mergeRecord (some rec0) (authFields nfd e urls k))
    ∧ (∀ p ∈ authFields nfd e urls k,
        aget (mergeRecord (some rec0) (authFields nfd e urls k)) p.1 = some p.2)
    ∧ (∀ f, f ∉ (authFields nfd e urls k).map Prod.fst → ¬ f = "screenshot" →
        aget (mergeRecord (some rec0) (authFields nfd e urls k)) f = aget rec0 f)
    ∧ ((aget rec0 "screenshot").isSome = true →
        aget (mergeRecord (some rec0) (authFields nfd e urls k)) "screenshot" =
          aget rec0 "screenshot")
    ∧ ((aget rec0 "screenshot").isSome = false →
        aget (mergeRecord (some rec0) (authFields nfd e urls k)) "screenshot" =
          some JVal.null) := by
  have hnames : (authFields nfd e urls k).map Prod.fst =
      ["title", "authors", "year", "venue", "venueShort", "url", "doi", "type"] := rfl
  have hscr : "screenshot" ∉ (authFields nfd e urls k).map Prod.fst := by
    rw [hnames]; decide
  have hnodup : ((authFields nfd e urls k).map Prod.fst).Nodup := by
    rw [hnames]; decide
  have hbase : aget (asetAll rec0 (authFields nfd e urls k)) "screenshot" =
      aget rec0 "screenshot" := aget_asetAll_not_mem rec0 _ _ hscr
  have hmerge : mergeRecord (some rec0) (authFields nfd e urls k) =
      if (aget (asetAll rec0 (authFields nfd e urls k)) "screenshot").isSome then
        asetAll rec0 (authFields nfd e urls k)
      else aset (asetAll rec0 (authFields nfd e urls k)) "screenshot" JVal.null := rfl
  refine ⟨?_, ?_, ?_, ?_, ?_⟩
  · have h1 : aget (buildReferences nfd prior ms urls) k =
        some (mergeRecord (aget prior k) (authFields nfd e urls k)) :=
      aget_foldkv_mem ms
        (fun kv => mergeRecord (aget prior kv.1) (authFields nfd kv.2 urls kv.1))
        [] k e hnd hm
    rw [hp] at h1
    exact h1
  · intro p hpmem
    have hp1 : p.1 ∈ (authFields nfd e urls k).map Prod.fst :=
      List.mem_map_of_mem Prod.fst hpmem
    have hpne : ¬ p.1 = "screenshot" := fun he => hscr (he ▸ hp1)
    have hbv : aget (asetAll rec0 (authFields nfd e urls k)) p.1 = some p.2 :=
      aget_asetAll_mem rec0 _ hnodup p hpmem
    rw [hmerge]
    by_cases hc : (aget (asetAll rec0 (authFields nfd e urls k)) "screenshot").isSome
    · rw [if_pos hc]; exact hbv
    · rw [if_neg hc, aget_aset_ne _ _ _ _ hpne]; exact hbv
  · intro f hf hfne
    have hbv : aget (asetAll rec0 (authFields nfd e urls k)) f = aget rec0 f :=
      aget_asetAll_not_mem rec0 _ f hf
    rw [hmerge]
    by_cases hc : (aget (asetAll rec0 (authFields nfd e urls k)) "screenshot").isSome
    · rw [if_pos hc]; exact hbv
    · rw [if_neg hc, aget_aset_ne _ _ _ _ hfne]; exact hbv
  · intro hs
    rw [hmerge, if_pos (by rw [hbase]; exact hs)]
    exact hbase
  · intro hs
    rw [hmerge, if_neg (by rw [hbase, hs]; exact Bool.false_ne_true)]
    exact aget_aset_self _ _ _

/-- C5 witness: a prior record holding both an unknown enrichment field
and a screenshot; the merge keeps both unchanged while writing the eight
builder fields. -/
theorem merge_overwrites_eight_fields_and_preserves_rest_witness :
    aget (buildReferences (fun s => s)
        [("k", [("note", JVal.str "x"), ("screenshot", JVal.str "sc")])]
        [("k", [("title", "T")])] []) "k" =
      some (mergeRecord (some [("note", JVal.str "x"), ("screenshot", JVal.str "sc")])
        (authFields (fun s => s) [("title", "T")] [] "k"))
    ∧ aget (mergeRecord (some [("note", JVal.str "x"), ("screenshot", JVal.str "sc")])
        (authFields (fun s => s) [("title", "T")] [] "k")) "note" =
      some (JVal.str "x")
    ∧ aget (mergeRecord (some [("note", JVal.str "x"), ("screenshot", JVal.str "sc")])
        (authFields (fun s => s) [("title", "T")] [] "k")) "screenshot" =
      some (JVal.str "sc") := by
  have h := merge_overwrites_eight_fields_and_preserves_rest (fun s => s)
      [("k", [("note", JVal.str "x"), ("screenshot", JVal.str "sc")])]
      [("k", [("title", "T")])] [] "k" [("title", "T")]
      [("note", JVal.str "x"), ("screenshot", JVal.str "sc")]
      (by unfold NodupKeys; decide) (by decide) rfl
  refine ⟨h.1, ?_, ?_⟩
  · rw [h.2.2.1 "note" (by decide) (by decide)]
    rfl
  · rw [h.2.2.2.1 rfl]
    rfl

/-! ## Claim C9 — auditor output and completion status -/

/-- C9 counterexample: a run that produces zero errors but two warnings
(a missing year and an orphaned record) finishes with the same completion
status 0 as a fully clean run — the status does not distinguish a
warning-only run from a clean one. -/
theorem warning_only_run_exits_like_clean :
    (runAuditCounts [] []
        [("k", [("title", JVal.str "T"), ("year", JVal.null),
                ("authors", JVal.arr [JVal.str "a"]), ("url", JVal.str "u")])] []) = (0, 2)
    ∧ runAuditCounts [] [] [] [] = (0, 0)
    ∧ auditExitCode [] []
        [("k", [("title", JVal.str "T"), ("year", JVal.null),
                ("authors", JVal.arr [JVal.str "a"]), ("url", JVal.str "u")])] [] = 0
    ∧ auditExitCode [] [] [] [] = 0 := by
  exact ⟨rfl, rfl, rfl, rfl⟩

/-- **C9 (amended).** The auditor returns two ordered message lists —
errors collected in emission order and warnings collected in emission
order, with the reported counts being exactly the lengths of those lists —
and the completion status distinguishes only error-present (status 1) from
error-free (status 0); a warning-only run receives the same status 0 as a
clean run. -/
theorem audit_status_distinguishes_errors_only
    (chapters : List (String × AuditChapter))
    (chapterMap : PyDict String (PyDict Nat String)) (references authors : JStore) :
    runAuditCounts chapters chapterMap references authors =
      ((runAudit chapters chapterMap references authors).1.length,
       (runAudit chapters chapterMap references authors).2.length)
    ∧ (¬ (runAudit chapters chapterMap references authors).1 = [] →
        auditExitCode chapters chapterMap references authors = 1)
    ∧ ((runAudit chapters chapterMap references authors).1 = [] →
        auditExitCode chapters chapterMap references authors = 0) := by
  refine ⟨rfl, ?_, ?_⟩
  · intro h
    have hlen : ¬ (runAuditCounts chapters chapterMap references authors).1 = 0 := by
      intro hz
      exact h (List.length_eq_zero.mp hz)
    simp only [auditExitCode]
    rw [if_pos hlen]
  · intro h
    have hlen : (runAuditCounts chapters chapterMap references authors).1 = 0 := by
      show (runAudit chapters chapterMap references authors).1.length = 0
      rw [h]
      rfl
    simp only [auditExitCode]
    rw [if_neg (fun hc => hc hlen)]

/-- C9 witness: a store whose only record lacks a title produces an error
and status 1; the empty run is clean and produces status 0. -/
theorem audit_status_distinguishes_errors_only_witness :
    auditExitCode [] [] [("e", [])] [] = 1 ∧ auditExitCode [] [] [] [] = 0 := by
  have h1 := audit_status_distinguishes_errors_only [] [] [("e", [])] []
  have h2 := audit_status_distinguishes_errors_only [] [] [] []
  exact ⟨h1.2.1 (by decide), h2.2.2 rfl⟩

/-! ## Claim C8 — referential totality of the output stores -/

theorem mem_aset_elim {κ ν : Type} [DecidableEq κ] (d : PyDict κ ν) (k : κ) (v : ν)
    (p : κ × ν) (h : p ∈ aset d k v) : p = (k, v) ∨ p ∈ d := by
  induction d with
  | nil =>
    simp only [aset] at h
    exact Or.inl (List.mem_singleton.mp h)
  | cons hd tl ih =>
    obtain ⟨a, b⟩ := hd
    by_cases hak : a = k
    · rw [aset_cons_pos tl a k b v hak] at h
      rcases List.mem_cons.mp h with he | hm
      · exact Or.inl he
      · exact Or.inr (List.mem_cons_of_mem _ hm)
    · rw [aset_cons_neg tl a k b v hak] at h
      rcases List.mem_cons.mp h with he | hm
      · exact Or.inr (he ▸ List.mem_cons_self _ _)
      · rcases ih hm with h1 | h2
        · exact Or.inl h1
        · exact Or.inr (List.mem_cons_of_mem _ h2)

theorem aget_foldkv_cases {κ ν β : Type} [DecidableEq κ] (ms : List (κ × β))
    (g : κ × β → ν) (acc : PyDict κ ν) (k : κ) (v : ν)
    (h : aget (ms.foldl (fun d kv => aset d kv.1 (g kv)) acc) k = some v) :
    (∃ e, (k, e) ∈ ms ∧ v = g (k, e)) ∨ aget acc k = some v := by
  induction ms generalizing acc with
  | nil => exact Or.inr h
  | cons hd tl ih =>
    simp only [List.foldl_cons] at h
    rcases ih _ h with ⟨e, hm, he⟩ | hacc
    · exact Or.inl ⟨e, List.mem_cons_of_mem _ hm, he⟩
    · by_cases hk : k = hd.1
      · subst hk
        rw [aget_aset_self] at hacc
        exact Or.inl ⟨hd.2, List.mem_cons_self _ _, (Option.some.inj hacc).symm⟩
      · rw [aget_aset_ne _ _ _ _ hk] at hacc
        exact Or.inr hacc

theorem jvalStrList_str_map (l : List String) :
    jvalStrList (some (JVal.arr (l.map JVal.str))) = l := by
  induction l with
  | nil => rfl
  | cons s rest ih =>
    have hstep : jvalStrList (some (JVal.arr ((s :: rest).map JVal.str))) =
        s :: jvalStrList (some (JVal.arr (rest.map JVal.str))) := rfl
    rw [hstep, ih]

theorem mem_authorSeq {ms : BibDB} {kv : String × Fields} {fl : String × String}
    (hkv : kv ∈ ms) (hfl : fl ∈ parseBibAuthors (agetD kv.2 "author" "")) :
    fl ∈ authorSeq ms := by
  induction ms with
  | nil => cases hkv
  | cons hd tl ih =>
    rcases List.mem_cons.mp hkv with he | hm
    · subst he
      exact List.mem_append_left _ hfl
    · exact List.mem_append_right _ (ih hm)

theorem aget_mergeRecord_authFields (ex : Option JRec) (nfd : String → String)
    (e : Fields) (urls : PyDict String String) (k : String) (p : String × JVal)
    (hp : p ∈ authFields nfd e urls k) :
    aget (mergeRecord ex (authFields nfd e urls k)) p.1 = some p.2 := by
  have hnames : (authFields nfd e urls k).map Prod.fst =
      ["title", "authors", "year", "venue", "venueShort", "url", "doi", "type"] := rfl
  have hscr : "screenshot" ∉ (authFields nfd e urls k).map Prod.fst := by
    rw [hnames]; decide
  have hnodup : ((authFields nfd e urls k).map Prod.fst).Nodup := by
    rw [hnames]; decide
  have hmerge : mergeRecord ex (authFields nfd e urls k) =
      if (aget (asetAll (ex.getD []) (authFields nfd e urls k)) "screenshot").isSome then
        asetAll (ex.getD []) (authFields nfd e urls k)
      else aset (asetAll (ex.getD []) (authFields nfd e urls k)) "screenshot" JVal.null := rfl
  have hp1 : p.1 ∈ (authFields nfd e urls k).map Prod.fst :=
    List.mem_map_of_mem Prod.fst hp
  have hpne : ¬ p.1 = "screenshot" := fun he => hscr (he ▸ hp1)
  have hbv : aget (asetAll (ex.getD []) (authFields nfd e urls k)) p.1 = some p.2 :=
    aget_asetAll_mem _ _ hnodup p hp
  rw [hmerge]
  by_cases hc : (aget (asetAll (ex.getD []) (authFields nfd e urls k)) "screenshot").isSome
  · rw [if_pos hc]; exact hbv
  · rw [if_neg hc, aget_aset_ne _ _ _ _ hpne]; exact hbv

theorem buildAuthorsAux_mono (nfd : String → String) (ex : JStore)
    (pairs : List (String × String)) (authors : JStore) (k : String)
    (h : (aget authors k).isSome = true) :
    (aget (buildAuthorsAux nfd ex pairs authors) k).isSome = true := by
  induction pairs generalizing authors with
  | nil => exact h
  | cons hd tl ih =>
    obtain ⟨f, l⟩ := hd
    simp only [buildAuthorsAux]
    by_cases hc : ¬ (makeAuthorKey nfd f l = "") ∧
        ((aget authors (makeAuthorKey nfd f l)).isNone = true)
    · rw [if_pos hc]
      apply ih
      by_cases hk : k = makeAuthorKey nfd f l
      · rw [hk, aget_aset_self]; rfl
      · rw [aget_aset_ne _ _ _ _ hk]; exact h
    · rw [if_neg hc]
      exact ih _ h

theorem buildAuthorsAux_covers (nfd : String → String) (ex : JStore)
    (pairs : List (String × String)) (authors : JStore) (fl : String × String)
    (hm : fl ∈ pairs) (hne : ¬ (makeAuthorKey nfd fl.1 fl.2 = "")) :
    (aget (buildAuthorsAux nfd ex pairs authors)
      (makeAuthorKey nfd fl.1 fl.2)).isSome = true := by
  induction pairs generalizing authors with
  | nil => cases hm
  | cons hd tl ih =>
    obtain ⟨f, l⟩ := hd
    simp only [buildAuthorsAux]
    rcases List.mem_cons.mp hm with he | hmem
    · have hf : makeAuthorKey nfd fl.1 fl.2 = makeAuthorKey nfd f l := by rw [he]
      by_cases hc : ¬ (makeAuthorKey nfd f l = "") ∧
          ((aget authors (makeAuthorKey nfd f l)).isNone = true)
      · rw [if_pos hc]
        apply buildAuthorsAux_mono
        rw [hf, aget_aset_self]; rfl
      · rw [if_neg hc]
        have hkey : ¬ (makeAuthorKey nfd f l = "") := by rw [← hf]; exact hne
        have hnn : ¬ ((aget authors (makeAuthorKey nfd f l)).isNone = true) :=
          fun hn => hc ⟨hkey, hn⟩
        have hsome : (aget authors (makeAuthorKey nfd f l)).isSome = true := by
          cases haux : aget authors (makeAuthorKey nfd f l) with
          | none => exact absurd (by rw [haux]; rfl) hnn
          | some v => rfl
        apply buildAuthorsAux_mono
        rw [hf]
        exact hsome
    · by_cases hc : ¬ (makeAuthorKey nfd f l = "") ∧
          ((aget authors (makeAuthorKey nfd f l)).isNone = true)
      · rw [if_pos hc]
        exact ih _ hmem
      · rw [if_neg hc]
        exact ih _ hmem

/-- The chapter-map/match-store invariant: every value recorded in any
chapter map is a key of the running match store. -/
def CMapInv (cmap : PyDict String (PyDict Nat String)) (ms : BibDB) : Prop :=
  ∀ slug cm p, aget cmap slug = some cm → p ∈ cm → p.2 ∈ akeys ms

def MPInv (st : MPState) : Prop := CMapInv st.chapterMap st.allMatches

theorem cmapinv_set (cmap : PyDict String (PyDict Nat String)) (ms : BibDB)
    (slug : String) (n : Nat) (key : String) (entry : Fields)
    (h : CMapInv cmap ms) :
    CMapInv (aset cmap slug (aset (agetD cmap slug []) n key)) (aset ms key entry) := by
  intro slug' cm' p hget hp
  by_cases hs : slug' = slug
  · subst hs
    rw [aget_aset_self] at hget
    have hcm : cm' = aset (agetD cmap slug' []) n key := (Option.some.inj hget).symm
    rcases mem_aset_elim _ _ _ _ (hcm ▸ hp) with he | hm
    · rw [he]
      exact (mem_akeys_aset ms key key entry).mpr (Or.inl rfl)
    · simp only [agetD] at hm
      cases haux : aget cmap slug' with
      | none =>
        rw [haux] at hm
        exact absurd hm (List.not_mem_nil p)
      | some cm0 =>
        rw [haux] at hm
        exact (mem_akeys_aset ms key p.2 entry).mpr (Or.inr (h slug' cm0 p haux hm))
  · rw [aget_aset_ne _ _ _ _ hs] at hget
    exact (mem_akeys_aset ms key p.2 entry).mpr (Or.inr (h slug' cm' p hget hp))

theorem cmapinv_new_chapter (cmap : PyDict String (PyDict Nat String)) (ms : BibDB)
    (slug : String) (h : CMapInv cmap ms) : CMapInv (aset cmap slug []) ms := by
  intro slug' cm' p hget hp
  by_cases hs : slug' = slug
  · subst hs
    rw [aget_aset_self] at hget
    have hcm : cm' = [] := (Option.some.inj hget).symm
    rw [hcm] at hp
    exact absurd hp (List.not_mem_nil p)
  · rw [aget_aset_ne _ _ _ _ hs] at hget
    exact h slug' cm' p hget hp

/-- Both match outcomes write the chapter map and the match store through
the same two keyed updates. -/
theorem mpProcessRef_shape (bib : BibDB) (idx : MatchIndices) (slug : String)
    (st : MPState) (ref : HtmlRef) :
    ∃ key entry,
      (mpProcessRef bib idx slug st ref).chapterMap =
        aset st.chapterMap slug (aset (agetD st.chapterMap slug []) ref.num key)
      ∧ (mpProcessRef bib idx slug st ref).allMatches = aset st.allMatches key entry := by
  unfold mpProcessRef
  cases hmr : (matchRef bib idx ref).1 with
  | some bibKey =>
    refine ⟨bibKey, (aget bib bibKey).getD [], ?_, ?_⟩
    · dsimp only
      split <;> rfl
    · dsimp only
      split <;> rfl
  | none =>
    exact ⟨makeSyntheticKey ref, makeSyntheticEntry ref, rfl, rfl⟩

theorem mpProcessRef_preserves (bib : BibDB) (idx : MatchIndices) (slug : String)
    (st : MPState) (ref : HtmlRef) (h : MPInv st) :
    MPInv (mpProcessRef bib idx slug st ref) := by
  obtain ⟨key, entry, hcm, ham⟩ := mpProcessRef_shape bib idx slug st ref
  show CMapInv (mpProcessRef bib idx slug st ref).chapterMap
    (mpProcessRef bib idx slug st ref).allMatches
  rw [hcm, ham]
  exact cmapinv_set st.chapterMap st.allMatches slug ref.num key entry h

theorem mpProcessChapter_preserves (bib : BibDB) (idx : MatchIndices)
    (st : MPState) (ch : String × List HtmlRef) (h : MPInv st) :
    MPInv (mpProcessChapter bib idx st ch) := by
  show MPInv (ch.2.foldl (mpProcessRef bib idx ch.1)
      { st with chapterMap := aset st.chapterMap ch.1 [] })
  apply foldl_preserve
  · intro s' a _ hs'
    exact mpProcessRef_preserves bib idx ch.1 s' a hs'
  · show CMapInv (aset st.chapterMap ch.1 []) st.allMatches
    exact cmapinv_new_chapter st.chapterMap st.allMatches ch.1 h

theorem matchPhase_inv (chapters : List (String × List HtmlRef)) (bib : BibDB) :
    MPInv (matchPhase chapters bib) := by
  show MPInv (chapters.foldl (mpProcessChapter bib (buildIndices bib)) ⟨[], [], []⟩)
  apply foldl_preserve
  · intro s' a _ hs'
    exact mpProcessChapter_preserves bib (buildIndices bib) s' a hs'
  · intro slug cm p hget hp
    exact Option.noConfusion hget

/-- C8 counterexample: a bibliography entry whose author field is a bare
comma parses to one author with empty names, whose key is the empty
string; the matched record keeps "" in its authors list, but the authors
store skips empty keys, so "" resolves to no author record. -/
theorem empty_author_key_not_in_authors_store :
    ((aget (buildDatabases (fun s => s)
        [("c1", [⟨1, "", "T", "", "http://x.com", none, ""⟩])]
        [("weird", [("author", ","), ("title", "T"), ("url", "http://x.com")])]
        [] []).2.1 "weird").map (fun r => jvalStrList (aget r "authors"))) = some [""]
    ∧ (aget (buildDatabases (fun s => s)
        [("c1", [⟨1, "", "T", "", "http://x.com", none, ""⟩])]
        [("weird", [("author", ","), ("title", "T"), ("url", "http://x.com")])]
        [] []).2.2 "").isSome = false := by
  constructor
  · rfl
  · rfl

/-- **C8 (amended).** After the database builder completes, every value of
every chapter map (matched or synthesized) is a key of the references
store, and every non-empty author key listed in any reference record is a
key of the authors store; the empty author key — produced when an author
fragment parses to empty names — can appear in records while the authors
store skips it. -/
theorem chapter_values_and_nonempty_author_keys_resolve
    (nfd : String → String) (chapters : List (String × List HtmlRef)) (bib : BibDB)
    (priorRefs priorAuthors : JStore) :
    (∀ slug cm p,
      aget (buildDatabases nfd chapters bib priorRefs priorAuthors).1 slug = some cm →
      p ∈ cm →
      (aget (buildDatabases nfd chapters bib priorRefs priorAuthors).2.1 p.2).isSome = true)
    ∧ (∀ k rec0 ak,
        aget (buildDatabases nfd chapters bib priorRefs priorAuthors).2.1 k = some rec0 →
        ak ∈ jvalStrList (aget rec0 "authors") → ¬ (ak = "") →
        (aget (buildDatabases nfd chapters bib priorRefs priorAuthors).2.2 ak).isSome
          = true) := by
  have hinv := matchPhase_inv chapters bib
  constructor
  · intro slug cm p hget hp
    have hmem : p.2 ∈ akeys (matchPhase chapters bib).allMatches :=
      hinv slug cm p hget hp
    have hiff : (aget (buildDatabases nfd chapters bib priorRefs priorAuthors).2.1
          p.2).isSome
        ↔ p.2 ∈ (matchPhase chapters bib).allMatches.map Prod.fst
          ∨ (aget ([] : JStore) p.2).isSome :=
      aget_foldkv_isSome (matchPhase chapters bib).allMatches
        (fun kv => mergeRecord (aget priorRefs kv.1)
          (authFields nfd kv.2 (matchPhase chapters bib).htmlUrls kv.1)) [] p.2
    exact hiff.mpr (Or.inl hmem)
  · intro k rec0 ak hget hmem hne
    have hcases := aget_foldkv_cases (matchPhase chapters bib).allMatches
        (fun kv => mergeRecord (aget priorRefs kv.1)
          (authFields nfd kv.2 (matchPhase chapters bib).htmlUrls kv.1)) [] k rec0 hget
    rcases hcases with ⟨e, hkm, hrec⟩ | habs
    · have hrec2 : rec0 = mergeRecord (aget priorRefs k)
          (authFields nfd e (matchPhase chapters bib).htmlUrls k) := hrec
      have hauth : aget rec0 "authors" =
          some (JVal.arr ((refAuthorKeys nfd e).map JVal.str)) := by
        rw [hrec2]
        exact aget_mergeRecord_authFields (aget priorRefs k) nfd e _ k
          ("authors", JVal.arr ((refAuthorKeys nfd e).map JVal.str))
          (List.mem_cons_of_mem _ (List.mem_cons_self _ _))
      rw [hauth, jvalStrList_str_map] at hmem
      simp only [refAuthorKeys] at hmem
      rcases List.mem_map.mp hmem with ⟨fl, hflmem, hfleq⟩
      have hak : makeAuthorKey nfd fl.1 fl.2 = ak := hfleq
      have hflseq : fl ∈ authorSeq (matchPhase chapters bib).allMatches :=
        mem_authorSeq hkm hflmem
      have hcov := buildAuthorsAux_covers nfd priorAuthors
          (authorSeq (matchPhase chapters bib).allMatches) [] fl hflseq
          (fun hz => hne (hak ▸ hz))
      rw [← hak]
      exact hcov
    · exact Option.noConfusion habs

/-- C8 witness: one chapter whose single entry matches the bibliography
record by URL; its chapter-map value resolves in the references store and
its author key resolves in the authors store. -/
theorem chapter_values_and_nonempty_author_keys_resolve_witness :
    (aget (buildDatabases (fun s => s)
        [("c1", [⟨1, "", "T", "", "http://x.com", none, ""⟩])]
        [("weird", [("author", "Doe, John"), ("title", "T"), ("url", "http://x.com")])]
        [] []).2.1 "weird").isSome = true
    ∧ (aget (buildDatabases (fun s => s)
        [("c1", [⟨1, "", "T", "", "http://x.com", none, ""⟩])]
        [("weird", [("author", "Doe, John"), ("title", "T"), ("url", "http://x.com")])]
        [] []).2.2 (makeAuthorKey (fun s => s) "John" "Doe")).isSome = true := by
  have h := chapter_values_and_nonempty_author_keys_resolve (fun s => s)
      [("c1", [⟨1, "", "T", "", "http://x.com", none, ""⟩])]
      [("weird", [("author", "Doe, John"), ("title", "T"), ("url", "http://x.com")])]
      [] []
  constructor
  · exact h.1 "c1" [(1, "weird")] (1, "weird") (by decide) (by decide)
  · exact h.2 "weird"
      (mergeRecord none (authFields (fun s => s)
        [("author", "Doe, John"), ("title", "T"), ("url", "http://x.com")]
        [("weird", "http://x.com")] "weird"))
      (makeAuthorKey (fun s => s) "John" "Doe")
      rfl (by decide) (by decide)

/-! ## Claim C7 — the dedup & renumber engine -/

theorem foldl_min_mem (xs : List Nat) (x : Nat) : xs.foldl Nat.min x ∈ x :: xs := by
  induction xs generalizing x with
  | nil => exact List.mem_singleton.mpr rfl
  | cons y ys ih =>
    rw [List.foldl_cons]
    rcases List.mem_cons.mp (ih (Nat.min x y)) with he | hm
    · rw [he]
      by_cases hxy : x ≤ y
      · have h3 : Nat.min x y = x := Nat.min_eq_left hxy
        rw [h3]
        exact List.mem_cons_self _ _
      · have h3 : Nat.min x y = y := Nat.min_eq_right (Nat.le_of_not_le hxy)
        rw [h3]
        exact List.mem_cons_of_mem _ (List.mem_cons_self _ _)
    · exact List.mem_cons_of_mem _ (List.mem_cons_of_mem _ hm)

theorem foldl_min_le (xs : List Nat) (x : Nat) :
    xs.foldl Nat.min x ≤ x ∧ ∀ n ∈ xs, xs.foldl Nat.min x ≤ n := by
  induction xs generalizing x with
  | nil => exact ⟨le_refl x, fun n hn => absurd hn (List.not_mem_nil n)⟩
  | cons y ys ih =>
    obtain ⟨h1, h2⟩ := ih (Nat.min x y)
    rw [List.foldl_cons]
    refine ⟨le_trans h1 (Nat.min_le_left x y), ?_⟩
    intro n hn
    rcases List.mem_cons.mp hn with he | hm
    · rw [he]
      exact le_trans h1 (Nat.min_le_right x y)
    · exact h2 n hm

theorem pyMinList_mem_le (nums : List Nat) (h : ¬ (nums = [])) :
    pyMinList nums ∈ nums ∧ ∀ n ∈ nums, pyMinList nums ≤ n := by
  cases nums with
  | nil => exact absurd rfl h
  | cons x xs =>
    refine ⟨foldl_min_mem xs x, ?_⟩
    intro n hn
    rcases List.mem_cons.mp hn with he | hm
    · rw [he]
      exact (foldl_min_le xs x).1
    · exact (foldl_min_le xs x).2 n hm

theorem insertSortedNat_perm (n : Nat) (l : List Nat) :
    (insertSortedNat n l).Perm (n :: l) := by
  induction l with
  | nil => exact List.Perm.refl _
  | cons m rest ih =>
    simp only [insertSortedNat]
    by_cases h : n ≤ m
    · rw [if_pos h]
    · rw [if_neg h]
      exact List.Perm.trans (List.Perm.cons m ih) (List.Perm.swap n m rest)

theorem sortNats_perm (l : List Nat) : (sortNats l).Perm l := by
  induction l with
  | nil => exact List.Perm.refl _
  | cons m rest ih =>
    exact List.Perm.trans (insertSortedNat_perm m (sortNats rest)) (ih.cons m)

theorem insertSortedNat_sorted (n : Nat) (l : List Nat) (h : l.Sorted (· ≤ ·)) :
    (insertSortedNat n l).Sorted (· ≤ ·) := by
  induction l with
  | nil => simp [insertSortedNat]
  | cons m rest ih =>
    simp only [insertSortedNat]
    rw [List.sorted_cons] at h
    by_cases hnm : n ≤ m
    · rw [if_pos hnm, List.sorted_cons]
      refine ⟨?_, List.sorted_cons.mpr h⟩
      intro b hb
      rcases List.mem_cons.mp hb with he | hm
      · rw [he]
        exact hnm
      · exact le_trans hnm (h.1 b hm)
    · rw [if_neg hnm, List.sorted_cons]
      refine ⟨?_, ih h.2⟩
      intro b hb
      rcases List.mem_cons.mp ((insertSortedNat_perm n rest).mem_iff.mp hb) with he | hm
      · rw [he]
        exact Nat.le_of_lt (Nat.lt_of_not_le hnm)
      · exact h.1 b hm

theorem sortNats_sorted (l : List Nat) : (sortNats l).Sorted (· ≤ ·) := by
  induction l with
  | nil => simp [sortNats]
  | cons m rest ih => exact insertSortedNat_sorted m (sortNats rest) ih

theorem renumFrom_get (l : List Nat) (hl : l.Nodup) (i : Nat) (idx : Nat)
    (h : idx < l.length) :
    aget (renumFrom i l) (l.get ⟨idx, h⟩) = some (i + idx) := by
  induction l generalizing i idx with
  | nil => exact absurd h (Nat.not_lt_zero idx)
  | cons m rest ih =>
    have hnd := List.nodup_cons.mp hl
    cases idx with
    | zero =>
      show aget ((m, i) :: renumFrom (i + 1) rest) m = some (i + 0)
      rw [aget_cons_pos _ _ _ _ rfl, Nat.add_zero]
    | succ j =>
      have hj : j < rest.length := Nat.lt_of_succ_lt_succ h
      have hne : ¬ (m = rest.get ⟨j, hj⟩) := by
        intro he
        exact hnd.1 (by rw [he]; exact List.get_mem rest j hj)
      show aget ((m, i) :: renumFrom (i + 1) rest) (rest.get ⟨j, hj⟩) = some (i + (j + 1))
      rw [aget_cons_neg _ _ _ _ hne, ih hnd.2 (i + 1) j hj]
      congr 1
      omega

/-- The numbers of one chapter-map fragment carrying a given key, in
document order (the contents of that key\x27s group in `key_to_nums`). -/
def numsOf (key : String) (cme : List (Nat × String)) : List Nat :=
  (cme.filter (fun nk => nk.2 = key)).map Prod.fst

theorem mem_numsOf (key : String) (cme : List (Nat × String)) (n : Nat) :
    n ∈ numsOf key cme ↔ (n, key) ∈ cme := by
  simp only [numsOf, List.mem_map, List.mem_filter, decide_eq_true_eq]
  constructor
  · rintro ⟨a, ⟨ha, hk⟩, hf⟩
    have he : a = (n, key) := Prod.ext hf hk
    rwa [← he]
  · intro h
    exact ⟨(n, key), ⟨h, rfl⟩, rfl⟩

theorem numsOf_nodup (key : String) (cme : List (Nat × String))
    (hnd : (cme.map Prod.fst).Nodup) : (numsOf key cme).Nodup :=
  List.Nodup.sublist ((List.filter_sublist _).map Prod.fst) hnd

theorem nodup_fst_key_unique {cme : List (Nat × String)}
    (hnd : (cme.map Prod.fst).Nodup) {n : Nat} {k1 k2 : String}
    (h1 : (n, k1) ∈ cme) (h2 : (n, k2) ∈ cme) : k1 = k2 := by
  induction cme with
  | nil => cases h1
  | cons a rest ih =>
    rw [List.map_cons] at hnd
    have hnd2 := List.nodup_cons.mp hnd
    rcases List.mem_cons.mp h1 with he1 | hr1 <;> rcases List.mem_cons.mp h2 with he2 | hr2
    · exact congrArg Prod.snd (he1.trans he2.symm)
    · exfalso
      have hm : n ∈ rest.map Prod.fst := List.mem_map_of_mem Prod.fst hr2
      rw [← he1] at hnd2
      exact hnd2.1 hm
    · exfalso
      have hm : n ∈ rest.map Prod.fst := List.mem_map_of_mem Prod.fst hr1
      rw [← he2] at hnd2
      exact hnd2.1 hm
    · exact ih hnd2.2 hr1 hr2

theorem keyToNums_char (cme : List (Nat × String)) (d : PyDict String (List Nat))
    (key : String) :
    aget (cme.foldl (fun d2 nk => aset d2 nk.2 (agetD d2 nk.2 [] ++ [nk.1])) d) key =
      if numsOf key cme = [] then aget d key
      else some (agetD d key [] ++ numsOf key cme) := by
  induction cme generalizing d with
  | nil => simp [numsOf]
  | cons nk rest ih =>
    simp only [List.foldl_cons]
    rw [ih]
    by_cases hk : nk.2 = key
    · have hno : numsOf key (nk :: rest) = nk.1 :: numsOf key rest := by
        simp [numsOf, List.filter_cons, hk]
      rw [hno]
      have hset : aget (aset d nk.2 (agetD d nk.2 [] ++ [nk.1])) key =
          some (agetD d key [] ++ [nk.1]) := by
        rw [hk]
        exact aget_aset_self _ _ _
      by_cases hrest : numsOf key rest = []
      · rw [if_pos hrest, if_neg (by simp), hset, hrest]
      · rw [if_neg hrest, if_neg (by simp)]
        have hsetD : agetD (aset d nk.2 (agetD d nk.2 [] ++ [nk.1])) key [] =
            agetD d key [] ++ [nk.1] := by
          have h2 : agetD (aset d nk.2 (agetD d nk.2 [] ++ [nk.1])) key [] =
              (aget (aset d nk.2 (agetD d nk.2 [] ++ [nk.1])) key).getD [] := rfl
          rw [h2, hset]
          rfl
        rw [hsetD, List.append_assoc]
        rfl
    · have hno : numsOf key (nk :: rest) = numsOf key rest := by
        simp [numsOf, List.filter_cons, hk]
      rw [hno]
      have hget : aget (aset d nk.2 (agetD d nk.2 [] ++ [nk.1])) key = aget d key :=
        aget_aset_ne _ _ _ _ (fun he => hk he.symm)
      have hgetD : agetD (aset d nk.2 (agetD d nk.2 [] ++ [nk.1])) key [] =
          agetD d key [] := by
        have h2 : agetD (aset d nk.2 (agetD d nk.2 [] ++ [nk.1])) key [] =
            (aget (aset d nk.2 (agetD d nk.2 [] ++ [nk.1])) key).getD [] := rfl
        rw [h2, hget]
        rfl
      rw [hget, hgetD]

theorem keyToNums_eq (cme : List (Nat × String)) (key : String) :
    aget (keyToNums cme) key =
      if numsOf key cme = [] then none else some (numsOf key cme) := by
  have h := keyToNums_char cme [] key
  unfold keyToNums
  simpa using h

theorem nodupKeys_foldl_aset {κ ν α : Type} [DecidableEq κ] (l : List α)
    (key : α → κ) (val : PyDict κ ν → α → ν) (d : PyDict κ ν) (h : NodupKeys d) :
    NodupKeys (l.foldl (fun d2 x => aset d2 (key x) (val d2 x)) d) := by
  induction l generalizing d with
  | nil => exact h
  | cons a rest ih => exact ih _ (nodupKeys_aset _ _ _ h)

theorem nodupKeys_keyToNums (cme : List (Nat × String)) : NodupKeys (keyToNums cme) := by
  unfold keyToNums
  exact nodupKeys_foldl_aset _ _ _ _ (by simp [NodupKeys, akeys])

/-- The inner per-number step of `build_redirect_map`. -/
def redirStep (canonical : Nat) (st2 : PyDict Nat Nat × List Nat) (n : Nat) :
    PyDict Nat Nat × List Nat :=
  if ¬ (n = canonical) then (aset st2.1 n canonical, st2.2 ++ [n]) else st2

/-- The per-group step of `build_redirect_map`. -/
def redirGroup (st : PyDict Nat Nat × List Nat) (kv : String × List Nat) :
    PyDict Nat Nat × List Nat :=
  if 1 < kv.2.length then kv.2.foldl (redirStep (pyMinList kv.2)) st else st

theorem buildRedirectMap_eq (cme : List (Nat × String)) :
    buildRedirectMap cme = (keyToNums cme).foldl redirGroup ([], []) := rfl

theorem redirStep_snd (canonical : Nat) (nums : List Nat)
    (st : PyDict Nat Nat × List Nat) :
    (nums.foldl (redirStep canonical) st).2 =
      st.2 ++ nums.filter (fun n => ¬ (n = canonical)) := by
  induction nums generalizing st with
  | nil => simp
  | cons m rest ih =>
    simp only [List.foldl_cons, List.filter_cons]
    by_cases hm : m = canonical
    · rw [ih]
      simp [redirStep, hm]
    · rw [ih]
      simp [redirStep, hm, List.append_assoc]

theorem redirStep_fst (canonical : Nat) (nums : List Nat)
    (st : PyDict Nat Nat × List Nat) (k : Nat) :
    aget (nums.foldl (redirStep canonical) st).1 k =
      if k ∈ nums ∧ ¬ (k = canonical) then some canonical else aget st.1 k := by
  induction nums generalizing st with
  | nil => simp
  | cons m rest ih =>
    simp only [List.foldl_cons]
    rw [ih]
    by_cases hk1 : k ∈ rest ∧ ¬ (k = canonical)
    · rw [if_pos hk1, if_pos ⟨List.mem_cons_of_mem _ hk1.1, hk1.2⟩]
    · rw [if_neg hk1]
      by_cases hm : m = canonical
      · have hstep : redirStep canonical st m = st := by simp [redirStep, hm]
        rw [hstep]
        by_cases hk2 : k ∈ m :: rest ∧ ¬ (k = canonical)
        · exfalso
          rcases List.mem_cons.mp hk2.1 with he | hr
          · exact hk2.2 (he.trans hm)
          · exact hk1 ⟨hr, hk2.2⟩
        · rw [if_neg hk2]
      · have hstep : redirStep canonical st m = (aset st.1 m canonical, st.2 ++ [m]) := by
          simp [redirStep, hm]
        rw [hstep]
        by_cases hkm : k = m
        · subst hkm
          rw [if_pos ⟨List.mem_cons_self _ _, hm⟩]
          exact aget_aset_self _ _ _
        · rw [aget_aset_ne _ _ _ _ hkm]
          by_cases hk2 : k ∈ m :: rest ∧ ¬ (k = canonical)
          · exfalso
            rcases List.mem_cons.mp hk2.1 with he | hr
            · exact hkm he
            · exact hk1 ⟨hr, hk2.2⟩
          · rw [if_neg hk2]

theorem redirGroup_snd (gl : List (String × List Nat))
    (st : PyDict Nat Nat × List Nat) (n : Nat) :
    n ∈ (gl.foldl redirGroup st).2 ↔
      n ∈ st.2 ∨ ∃ kv ∈ gl, 1 < kv.2.length ∧ n ∈ kv.2 ∧ ¬ (n = pyMinList kv.2) := by
  induction gl generalizing st with
  | nil => simp
  | cons g rest ih =>
    simp only [List.foldl_cons]
    rw [ih]
    constructor
    · rintro (hst | ⟨kv, hkv, h1, h2, h3⟩)
      · by_cases hg : 1 < g.2.length
        · have hgr : (redirGroup st g).2 =
              st.2 ++ g.2.filter (fun m => ¬ (m = pyMinList g.2)) := by
            simp only [redirGroup, if_pos hg]
            exact redirStep_snd _ _ _
          rw [hgr] at hst
          rcases List.mem_append.mp hst with h | h
          · exact Or.inl h
          · have hf := List.mem_filter.mp h
            exact Or.inr ⟨g, List.mem_cons_self _ _, hg, hf.1, by simpa using hf.2⟩
        · have hgr : redirGroup st g = st := by simp [redirGroup, hg]
          rw [hgr] at hst
          exact Or.inl hst
      · exact Or.inr ⟨kv, List.mem_cons_of_mem _ hkv, h1, h2, h3⟩
    · rintro (hst | ⟨kv, hkv, h1, h2, h3⟩)
      · left
        by_cases hg : 1 < g.2.length
        · have hgr : (redirGroup st g).2 =
              st.2 ++ g.2.filter (fun m => ¬ (m = pyMinList g.2)) := by
            simp only [redirGroup, if_pos hg]
            exact redirStep_snd _ _ _
          rw [hgr]
          exact List.mem_append_left _ hst
        · have hgr : redirGroup st g = st := by simp [redirGroup, hg]
          rw [hgr]
          exact hst
      · rcases List.mem_cons.mp hkv with he | hr
        · subst he
          left
          have hgr : (redirGroup st kv).2 =
              st.2 ++ kv.2.filter (fun m => ¬ (m = pyMinList kv.2)) := by
            simp only [redirGroup, if_pos h1]
            exact redirStep_snd _ _ _
          rw [hgr]
          exact List.mem_append_right _ (List.mem_filter.mpr ⟨h2, by simpa using h3⟩)
        · exact Or.inr ⟨kv, hr, h1, h2, h3⟩

theorem redirGroup_fst_cases (gl : List (String × List Nat))
    (st : PyDict Nat Nat × List Nat) (n c : Nat)
    (h : aget (gl.foldl redirGroup st).1 n = some c) :
    (∃ kv ∈ gl, 1 < kv.2.length ∧ n ∈ kv.2 ∧ ¬ (n = pyMinList kv.2) ∧
      c = pyMinList kv.2) ∨ aget st.1 n = some c := by
  induction gl generalizing st with
  | nil => exact Or.inr h
  | cons g rest ih =>
    simp only [List.foldl_cons] at h
    rcases ih _ h with ⟨kv, hkv, hrest⟩ | hst
    · exact Or.inl ⟨kv, List.mem_cons_of_mem _ hkv, hrest⟩
    · by_cases hg : 1 < g.2.length
      · have hgr : redirGroup st g = g.2.foldl (redirStep (pyMinList g.2)) st := by
          simp [redirGroup, hg]
        rw [hgr, redirStep_fst] at hst
        by_cases hin : n ∈ g.2 ∧ ¬ (n = pyMinList g.2)
        · rw [if_pos hin] at hst
          exact Or.inl ⟨g, List.mem_cons_self _ _, hg, hin.1, hin.2,
            (Option.some.inj hst).symm⟩
        · rw [if_neg hin] at hst
          exact Or.inr hst
      · have hgr : redirGroup st g = st := by simp [redirGroup, hg]
        rw [hgr] at hst
        exact Or.inr hst

theorem redirGroup_fst_untouched (gl : List (String × List Nat))
    (st : PyDict Nat Nat × List Nat) (n : Nat)
    (h : ∀ kv ∈ gl, n ∈ kv.2 → n = pyMinList kv.2) :
    aget (gl.foldl redirGroup st).1 n = aget st.1 n := by
  induction gl generalizing st with
  | nil => rfl
  | cons g rest ih =>
    simp only [List.foldl_cons]
    rw [ih _ (fun kv hkv => h kv (List.mem_cons_of_mem _ hkv))]
    by_cases hg : 1 < g.2.length
    · have hgr : redirGroup st g = g.2.foldl (redirStep (pyMinList g.2)) st := by
        simp [redirGroup, hg]
      rw [hgr, redirStep_fst]
      have hni : ¬ (n ∈ g.2 ∧ ¬ (n = pyMinList g.2)) := by
        rintro ⟨hmem, hne⟩
        exact hne (h g (List.mem_cons_self _ _) hmem)
      rw [if_neg hni]
    · simp [redirGroup, hg]

theorem redirGroup_fst_mem (gl : List (String × List Nat))
    (st : PyDict Nat Nat × List Nat) (n : Nat) (kv : String × List Nat)
    (hdisj : gl.Pairwise (fun a b => ∀ m, m ∈ a.2 → m ∈ b.2 → False))
    (hkv : kv ∈ gl) (hlen : 1 < kv.2.length) (hn : n ∈ kv.2)
    (hne : ¬ (n = pyMinList kv.2)) :
    aget (gl.foldl redirGroup st).1 n = some (pyMinList kv.2) := by
  induction gl generalizing st with
  | nil => cases hkv
  | cons g rest ih =>
    simp only [List.foldl_cons]
    rcases List.mem_cons.mp hkv with he | hr
    · subst he
      have huntouched : ∀ kv2 ∈ rest, n ∈ kv2.2 → n = pyMinList kv2.2 := by
        intro kv2 hkv2 hn2
        exact ((List.pairwise_cons.mp hdisj).1 kv2 hkv2 n hn hn2).elim
      rw [redirGroup_fst_untouched rest _ n huntouched]
      have hgr : redirGroup st kv = kv.2.foldl (redirStep (pyMinList kv.2)) st := by
        simp [redirGroup, hlen]
      rw [hgr, redirStep_fst, if_pos ⟨hn, hne⟩]
    · exact ih _ (List.pairwise_cons.mp hdisj).2 hr

theorem keyToNums_group_eq (cme : List (Nat × String)) (key : String)
    (nums : List Nat) (h : aget (keyToNums cme) key = some nums) :
    nums = numsOf key cme ∧ ¬ (numsOf key cme = []) := by
  rw [keyToNums_eq] at h
  by_cases hempty : numsOf key cme = []
  · rw [if_pos hempty] at h
    exact Option.noConfusion h
  · rw [if_neg hempty] at h
    exact ⟨(Option.some.inj h).symm, hempty⟩

theorem keyToNums_disjoint (cme : List (Nat × String))
    (hnd : (cme.map Prod.fst).Nodup) :
    (keyToNums cme).Pairwise (fun a b => ∀ m, m ∈ a.2 → m ∈ b.2 → False) := by
  have hk := nodupKeys_keyToNums cme
  have hpair : (keyToNums cme).Pairwise (fun a b => ¬ (a.1 = b.1)) := by
    have h2 := hk
    rw [NodupKeys, akeys, List.Nodup, List.pairwise_map] at h2
    exact h2
  refine List.Pairwise.imp_of_mem ?_ hpair
  intro a b ha hb hne m hma hmb
  have hga : aget (keyToNums cme) a.1 = some a.2 := aget_eq_some_of_mem _ _ _ hk ha
  have hgb : aget (keyToNums cme) b.1 = some b.2 := aget_eq_some_of_mem _ _ _ hk hb
  have ha2 := (keyToNums_group_eq cme a.1 a.2 hga).1
  have hb2 := (keyToNums_group_eq cme b.1 b.2 hgb).1
  rw [ha2] at hma
  rw [hb2] at hmb
  exact hne (nodup_fst_key_unique hnd ((mem_numsOf _ _ _).mp hma)
    ((mem_numsOf _ _ _).mp hmb))

/-- The value `process_chapter` stores in `final_map` for one number. -/
def finalVal (redirects renumber : PyDict Nat Nat) (n : Nat) : Nat :=
  match aget redirects n with
  | some c => agetD renumber c 0
  | none => agetD renumber n 0

theorem aget_foldl_aset_not_mem {κ ν : Type} [DecidableEq κ] (l : List κ) (g : κ → ν)
    (acc : PyDict κ ν) (k : κ) (h : k ∉ l) :
    aget (l.foldl (fun d x => aset d x (g x)) acc) k = aget acc k := by
  induction l generalizing acc with
  | nil => rfl
  | cons a rest ih =>
    simp only [List.foldl_cons]
    rw [ih _ (fun hm => h (List.mem_cons_of_mem _ hm)),
      aget_aset_ne _ _ _ _ (fun he => h (by rw [he]; exact List.mem_cons_self _ _))]

theorem aget_foldl_aset_mem {κ ν : Type} [DecidableEq κ] (l : List κ) (g : κ → ν)
    (acc : PyDict κ ν) (k : κ) (hnd : l.Nodup) (h : k ∈ l) :
    aget (l.foldl (fun d x => aset d x (g x)) acc) k = some (g k) := by
  induction l generalizing acc with
  | nil => cases h
  | cons a rest ih =>
    have hnd2 := List.nodup_cons.mp hnd
    simp only [List.foldl_cons]
    rcases List.mem_cons.mp h with he | hm
    · subst he
      rw [aget_foldl_aset_not_mem rest g _ k hnd2.1]
      exact aget_aset_self _ _ _
    · exact ih _ hnd2.2 hm

theorem finalMapOf_eq (allNums : List Nat) (rs rn : PyDict Nat Nat) :
    finalMapOf allNums rs rn =
      allNums.foldl (fun fm n => aset fm n (finalVal rs rn n)) [] := by
  unfold finalMapOf
  refine foldl_congr_mem _ _ _ _ ?_
  intro s' a _
  unfold finalVal
  cases aget rs a <;> rfl

theorem chapterFinalMap_get (cme : List (Nat × String)) (n : Nat)
    (hnd : (cme.map Prod.fst).Nodup) (h : n ∈ cme.map Prod.fst) :
    aget (chapterFinalMap cme) n =
      some (finalVal (buildRedirectMap cme).1
        (buildRenumberMap (cme.map Prod.fst) (buildRedirectMap cme).2) n) := by
  show aget (finalMapOf (cme.map Prod.fst) (buildRedirectMap cme).1
      (buildRenumberMap (cme.map Prod.fst) (buildRedirectMap cme).2)) n = _
  rw [finalMapOf_eq]
  exact aget_foldl_aset_mem _ _ _ _ hnd h

/-- The source\x27s `remaining` list: the kept numbers in ascending order. -/
def remainingOf (cme : List (Nat × String)) : List Nat :=
  sortNats (((cme.map Prod.fst).filter
    (fun n => ¬ (n ∈ (buildRedirectMap cme).2))).dedup)

/-- **C7.** For every chapter-map fragment with distinct local numbers:
the canonical number of each key group is its minimum; the removal set is
exactly the non-minimal members of multi-member groups; the redirect map
sends exactly those numbers to their group minimum; the kept numbers are
all numbers minus the removed ones, listed in ascending order without
duplicates, and they receive the sequential new numbers 1..K in that
order; and every original number\x27s final number is computed from its
redirect target when redirected (so it equals the final number of the
kept canonical entry) and from the number itself otherwise. -/
theorem dedup_renumber_engine_correct (cme : List (Nat × String))
    (hnd : (cme.map Prod.fst).Nodup) :
    (∀ key nums, aget (keyToNums cme) key = some nums →
        pyMinList nums ∈ nums ∧ ∀ n ∈ nums, pyMinList nums ≤ n)
    ∧ (∀ n, n ∈ (buildRedirectMap cme).2 ↔
        ∃ key nums, aget (keyToNums cme) key = some nums ∧ 1 < nums.length ∧
          n ∈ nums ∧ ¬ (n = pyMinList nums))
    ∧ (∀ n c, aget (buildRedirectMap cme).1 n = some c ↔
        ∃ key nums, aget (keyToNums cme) key = some nums ∧ 1 < nums.length ∧
          n ∈ nums ∧ ¬ (n = pyMinList nums) ∧ c = pyMinList nums)
    ∧ (∀ n, n ∈ remainingOf cme ↔
        n ∈ cme.map Prod.fst ∧ ¬ (n ∈ (buildRedirectMap cme).2))
    ∧ (remainingOf cme).Sorted (· ≤ ·)
    ∧ (remainingOf cme).Nodup
    ∧ (∀ idx (h : idx < (remainingOf cme).length),
        aget (buildRenumberMap (cme.map Prod.fst) (buildRedirectMap cme).2)
          ((remainingOf cme).get ⟨idx, h⟩) = some (idx + 1))
    ∧ (∀ n c, n ∈ cme.map Prod.fst → aget (buildRedirectMap cme).1 n = some c →
        aget (chapterFinalMap cme) n = aget (chapterFinalMap cme) c)
    ∧ (∀ n, n ∈ cme.map Prod.fst → aget (buildRedirectMap cme).1 n = none →
        aget (chapterFinalMap cme) n =
          some (agetD (buildRenumberMap (cme.map Prod.fst)
            (buildRedirectMap cme).2) n 0)) := by
  have hdisj := keyToNums_disjoint cme hnd
  have hktnd := nodupKeys_keyToNums cme
  have hremnd : (remainingOf cme).Nodup :=
    ((sortNats_perm _).nodup_iff).mpr (List.nodup_dedup _)
  have hredir : ∀ n c, aget (buildRedirectMap cme).1 n = some c ↔
      ∃ key nums, aget (keyToNums cme) key = some nums ∧ 1 < nums.length ∧
        n ∈ nums ∧ ¬ (n = pyMinList nums) ∧ c = pyMinList nums := by
    intro n c
    constructor
    · intro h
      rw [buildRedirectMap_eq] at h
      rcases redirGroup_fst_cases _ _ _ _ h with ⟨kv, hkv, h1, h2, h3, h4⟩ | habs
      · exact ⟨kv.1, kv.2, aget_eq_some_of_mem _ _ _ hktnd hkv, h1, h2, h3, h4⟩
      · exact Option.noConfusion habs
    · rintro ⟨key, nums, hget, h1, h2, h3, h4⟩
      rw [buildRedirectMap_eq, h4]
      exact redirGroup_fst_mem _ _ _ (key, nums) hdisj
        (mem_of_aget_eq_some _ _ _ hget) h1 h2 h3
  refine ⟨?_, ?_, hredir, ?_, ?_, hremnd, ?_, ?_, ?_⟩
  · intro key nums hget
    have h2 := keyToNums_group_eq cme key nums hget
    rw [h2.1]
    exact pyMinList_mem_le _ h2.2
  · intro n
    rw [buildRedirectMap_eq, redirGroup_snd]
    constructor
    · rintro (habs | ⟨kv, hkv, h1, h2, h3⟩)
      · exact absurd habs (List.not_mem_nil n)
      · exact ⟨kv.1, kv.2, aget_eq_some_of_mem _ _ _ hktnd hkv, h1, h2, h3⟩
    · rintro ⟨key, nums, hget, h1, h2, h3⟩
      exact Or.inr ⟨(key, nums), mem_of_aget_eq_some _ _ _ hget, h1, h2, h3⟩
  · intro n
    unfold remainingOf
    rw [(sortNats_perm _).mem_iff, List.mem_dedup, List.mem_filter]
    simp only [decide_eq_true_eq]
  · exact sortNats_sorted _
  · intro idx h
    exact (Nat.add_comm 1 idx) ▸ renumFrom_get (remainingOf cme) hremnd 1 idx h
  · intro n c hmem hred
    have hfn := chapterFinalMap_get cme n hnd hmem
    rcases (hredir n c).mp hred with ⟨key, nums, hget, h1, h2, h3, h4⟩
    have hgrp := keyToNums_group_eq cme key nums hget
    have hcnums : c ∈ nums := by
      rw [h4]
      exact (pyMinList_mem_le nums (by rw [hgrp.1]; exact hgrp.2)).1
    have hcmem : c ∈ cme.map Prod.fst := by
      have : (c, key) ∈ cme := (mem_numsOf _ _ _).mp (by rw [← hgrp.1]; exact hcnums)
      exact List.mem_map_of_mem Prod.fst this
    have hcnone : aget (buildRedirectMap cme).1 c = none := by
      cases haux : aget (buildRedirectMap cme).1 c with
      | none => rfl
      | some c2 =>
        exfalso
        rcases (hredir c c2).mp haux with ⟨key2, nums2, hget2, g1, g2, g3, g4⟩
        have hgrp2 := keyToNums_group_eq cme key2 nums2 hget2
        have hk12 : key = key2 := by
          apply nodup_fst_key_unique hnd
          · exact (mem_numsOf _ _ _).mp (by rw [← hgrp.1]; exact hcnums)
          · exact (mem_numsOf _ _ _).mp (by rw [← hgrp2.1]; exact g2)
        have hnums : nums = nums2 := by
          rw [hgrp.1, hgrp2.1, hk12]
        exact g3 (by rw [← hnums, h4])
    have hfc := chapterFinalMap_get cme c hnd hcmem
    rw [hfn, hfc]
    unfold finalVal
    rw [hred, hcnone]
  · intro n hmem hnone
    have hfn := chapterFinalMap_get cme n hnd hmem
    rw [hfn]
    unfold finalVal
    rw [hnone]

/-- C7 witness: local numbers 3 and 7 share a key, so 7 redirects to 3,
only 3 and 9 are kept (renumbered 1 and 2), a citation marker on 7 is
rewritten to slot 1, and a fragment without duplicates still closes its
numbering gaps. -/
theorem dedup_renumber_engine_correct_witness :
    aget (buildRedirectMap [(3, "smith2020foo"), (7, "smith2020foo"), (9, "other")]).1 7 =
      some 3
    ∧ keptNums [(3, "smith2020foo"), (7, "smith2020foo"), (9, "other")] = [3, 9]
    ∧ aget (chapterFinalMap [(3, "smith2020foo"), (7, "smith2020foo"), (9, "other")]) 7 =
        aget (chapterFinalMap [(3, "smith2020foo"), (7, "smith2020foo"), (9, "other")]) 3
    ∧ rewriteCitations [(3, "smith2020foo"), (7, "smith2020foo"), (9, "other")] [7] = [1]
    ∧ chapterFinalMap [(2, "a"), (5, "b")] = [(2, 1), (5, 2)] := by
  have h := dedup_renumber_engine_correct
      [(3, "smith2020foo"), (7, "smith2020foo"), (9, "other")] (by decide)
  have hred : aget (buildRedirectMap
      [(3, "smith2020foo"), (7, "smith2020foo"), (9, "other")]).1 7 = some 3 :=
    (h.2.2.1 7 3).mpr ⟨"smith2020foo", [3, 7], by decide, by decide, by decide,
      by decide, by decide⟩
  refine ⟨hred, by decide, ?_, by decide, by decide⟩
  exact h.2.2.2.2.2.2.2.1 7 3 (by decide) hred

/-! ## Claim C4 — idempotence of the builder -/

theorem aset_aset {κ ν : Type} [DecidableEq κ] (d : PyDict κ ν) (k : κ) (v vv : ν) :
    aset (aset d k v) k vv = aset d k vv := by
  induction d with
  | nil => simp [aset]
  | cons hd tl ih =>
    obtain ⟨a, b⟩ := hd
    by_cases hak : a = k
    · rw [aset_cons_pos tl a k b v hak, aset_cons_pos tl k k v vv rfl,
        aset_cons_pos tl a k b vv hak]
    · rw [aset_cons_neg tl a k b v hak, aset_cons_neg _ a k b vv hak,
        aset_cons_neg tl a k b vv hak, ih]

theorem mergeRecord_screenshot_isSome (ex : Option JRec) (fs : List (String × JVal)) :
    (aget (mergeRecord ex fs) "screenshot").isSome = true := by
  have hmerge : mergeRecord ex fs =
      if (aget (asetAll (ex.getD []) fs) "screenshot").isSome then asetAll (ex.getD []) fs
      else aset (asetAll (ex.getD []) fs) "screenshot" JVal.null := rfl
  rw [hmerge]
  by_cases hc : (aget (asetAll (ex.getD []) fs) "screenshot").isSome
  · rw [if_pos hc]
    exact hc
  · rw [if_neg hc, aget_aset_self]
    rfl

theorem mergeRecord_idem (ex : Option JRec) (nfd : String → String) (e : Fields)
    (urls : PyDict String String) (k : String) :
    mergeRecord (some (mergeRecord ex (authFields nfd e urls k)))
      (authFields nfd e urls k) = mergeRecord ex (authFields nfd e urls k) := by
  have hall : ∀ p ∈ authFields nfd e urls k,
      aget (mergeRecord ex (authFields nfd e urls k)) p.1 = some p.2 :=
    fun p hp => aget_mergeRecord_authFields ex nfd e urls k p hp
  have hb : asetAll (mergeRecord ex (authFields nfd e urls k)) (authFields nfd e urls k)
      = mergeRecord ex (authFields nfd e urls k) := asetAll_id _ _ hall
  have hstep : mergeRecord (some (mergeRecord ex (authFields nfd e urls k)))
      (authFields nfd e urls k) =
      if (aget (asetAll (mergeRecord ex (authFields nfd e urls k))
            (authFields nfd e urls k)) "screenshot").isSome then
        asetAll (mergeRecord ex (authFields nfd e urls k)) (authFields nfd e urls k)
      else aset (asetAll (mergeRecord ex (authFields nfd e urls k))
        (authFields nfd e urls k)) "screenshot" JVal.null := rfl
  rw [hstep, hb, if_pos (mergeRecord_screenshot_isSome ex (authFields nfd e urls k))]

theorem buildReferences_idem (nfd : String → String) (prior : JStore) (ms : BibDB)
    (urls : PyDict String String) (hnd : NodupKeys ms) :
    buildReferences nfd (buildReferences nfd prior ms urls) ms urls =
      buildReferences nfd prior ms urls := by
  have hcong : ∀ (s2 : JStore) (kv : String × Fields), kv ∈ ms →
      aset s2 kv.1 (mergeRecord (aget (buildReferences nfd prior ms urls) kv.1)
        (authFields nfd kv.2 urls kv.1)) =
      aset s2 kv.1 (mergeRecord (aget prior kv.1) (authFields nfd kv.2 urls kv.1)) := by
    intro s2 kv hkv
    have hget : aget (buildReferences nfd prior ms urls) kv.1 =
        some (mergeRecord (aget prior kv.1) (authFields nfd kv.2 urls kv.1)) :=
      aget_foldkv_mem ms
        (fun kv2 => mergeRecord (aget prior kv2.1) (authFields nfd kv2.2 urls kv2.1))
        [] kv.1 kv.2 hnd hkv
    rw [hget, mergeRecord_idem]
  exact foldl_congr_mem ms
    (fun refs kv => aset refs kv.1
      (mergeRecord (aget (buildReferences nfd prior ms urls) kv.1)
        (authFields nfd kv.2 urls kv.1)))
    (fun refs kv => aset refs kv.1
      (mergeRecord (aget prior kv.1) (authFields nfd kv.2 urls kv.1)))
    [] hcong

theorem mergeAuthor_collapse (p : Option JRec) (f0 l0 f l : String) :
    mergeAuthor (some (mergeAuthor p f0 l0)) f l = mergeAuthor p f l := by
  cases p with
  | some rec0 =>
    show aset (aset rec0 "displayName" (JVal.str (makeDisplayName f0 l0))) "displayName"
        (JVal.str (makeDisplayName f l)) =
      aset rec0 "displayName" (JVal.str (makeDisplayName f l))
    exact aset_aset rec0 "displayName" _ _
  | none => rfl

theorem buildAuthorsAux_cases (nfd : String → String) (ex : JStore)
    (pairs : List (String × String)) (authors : JStore) (k : String) (v : JRec)
    (h : aget (buildAuthorsAux nfd ex pairs authors) k = some v) :
    aget authors k = some v ∨
      ∃ f0 l0, (f0, l0) ∈ pairs ∧ makeAuthorKey nfd f0 l0 = k ∧
        v = mergeAuthor (aget ex k) f0 l0 := by
  induction pairs generalizing authors with
  | nil => exact Or.inl h
  | cons hd tl ih =>
    obtain ⟨f, l⟩ := hd
    simp only [buildAuthorsAux] at h
    by_cases hc : ¬ (makeAuthorKey nfd f l = "") ∧
        ((aget authors (makeAuthorKey nfd f l)).isNone = true)
    · rw [if_pos hc] at h
      rcases ih _ h with hleft | ⟨f0, l0, hmem, hkey, hval⟩
      · by_cases hk : k = makeAuthorKey nfd f l
        · subst hk
          rw [aget_aset_self] at hleft
          exact Or.inr ⟨f, l, List.mem_cons_self _ _, rfl, (Option.some.inj hleft).symm⟩
        · rw [aget_aset_ne _ _ _ _ hk] at hleft
          exact Or.inl hleft
      · exact Or.inr ⟨f0, l0, List.mem_cons_of_mem _ hmem, hkey, hval⟩
    · rw [if_neg hc] at h
      rcases ih _ h with hleft | ⟨f0, l0, hmem, hkey, hval⟩
      · exact Or.inl hleft
      · exact Or.inr ⟨f0, l0, List.mem_cons_of_mem _ hmem, hkey, hval⟩

theorem buildAuthorsAux_agree (nfd : String → String) (ex1 ex2 : JStore)
    (pairs : List (String × String)) (authors : JStore)
    (H : ∀ f l, (f, l) ∈ pairs →
      (aget authors (makeAuthorKey nfd f l)).isNone = true →
      ¬ (makeAuthorKey nfd f l = "") →
      mergeAuthor (aget ex2 (makeAuthorKey nfd f l)) f l =
        mergeAuthor (aget ex1 (makeAuthorKey nfd f l)) f l) :
    buildAuthorsAux nfd ex2 pairs authors = buildAuthorsAux nfd ex1 pairs authors := by
  induction pairs generalizing authors with
  | nil => rfl
  | cons hd tl ih =>
    obtain ⟨f, l⟩ := hd
    simp only [buildAuthorsAux]
    by_cases hc : ¬ (makeAuthorKey nfd f l = "") ∧
        ((aget authors (makeAuthorKey nfd f l)).isNone = true)
    · rw [if_pos hc, if_pos hc]
      have hv : mergeAuthor (aget ex2 (makeAuthorKey nfd f l)) f l =
          mergeAuthor (aget ex1 (makeAuthorKey nfd f l)) f l :=
        H f l (List.mem_cons_self _ _) hc.2 hc.1
      rw [hv]
      apply ih
      intro f2 l2 hmem2 hnone2 hne2
      refine H f2 l2 (List.mem_cons_of_mem _ hmem2) ?_ hne2
      by_cases hk2 : makeAuthorKey nfd f2 l2 = makeAuthorKey nfd f l
      · rw [hk2, aget_aset_self] at hnone2
        exact Bool.noConfusion hnone2
      · rw [aget_aset_ne _ _ _ _ hk2] at hnone2
        exact hnone2
    · rw [if_neg hc, if_neg hc]
      apply ih
      intro f2 l2 hmem2 hnone2 hne2
      exact H f2 l2 (List.mem_cons_of_mem _ hmem2) hnone2 hne2

theorem buildAuthors_idem (nfd : String → String) (prior : JStore) (ms : BibDB) :
    buildAuthors nfd (buildAuthors nfd prior ms) ms = buildAuthors nfd prior ms := by
  show buildAuthorsAux nfd (buildAuthors nfd prior ms) (authorSeq ms) [] =
    buildAuthorsAux nfd prior (authorSeq ms) []
  apply buildAuthorsAux_agree
  intro f l hmem _ hne
  have hcov : (aget (buildAuthors nfd prior ms) (makeAuthorKey nfd f l)).isSome = true :=
    buildAuthorsAux_covers nfd prior (authorSeq ms) [] (f, l) hmem hne
  cases haux : aget (buildAuthors nfd prior ms) (makeAuthorKey nfd f l) with
  | none =>
    rw [haux] at hcov
    exact Bool.noConfusion hcov
  | some v =>
    rcases buildAuthorsAux_cases nfd prior (authorSeq ms) [] _ v haux with
      habs | ⟨f0, l0, hm0, hk0, hv0⟩
    · exact Option.noConfusion habs
    · rw [hv0]
      exact mergeAuthor_collapse _ _ _ _ _

def AMNodup (st : MPState) : Prop := NodupKeys st.allMatches

theorem matchPhase_allMatches_nodup (chapters : List (String × List HtmlRef))
    (bib : BibDB) : AMNodup (matchPhase chapters bib) := by
  show AMNodup (chapters.foldl (mpProcessChapter bib (buildIndices bib)) ⟨[], [], []⟩)
  apply foldl_preserve
  · intro s2 a _ hs2
    show AMNodup (a.2.foldl (mpProcessRef bib (buildIndices bib) a.1)
        { s2 with chapterMap := aset s2.chapterMap a.1 [] })
    apply foldl_preserve
    · intro s3 r _ hs3
      obtain ⟨key, entry, _, ham⟩ := mpProcessRef_shape bib (buildIndices bib) a.1 s3 r
      show NodupKeys (mpProcessRef bib (buildIndices bib) a.1 s3 r).allMatches
      rw [ham]
      exact nodupKeys_aset _ _ _ hs3
    · exact hs2
  · show NodupKeys ([] : BibDB)
    simp [NodupKeys, akeys]

/-- **C4.** Running the database builder twice on the same parsed sources,
with the second run taking the first run\x27s output stores as its prior
persisted stores, produces exactly the same three output stores as the
first run: the builder is idempotent. -/
theorem builder_idempotent (nfd : String → String)
    (chapters : List (String × List HtmlRef)) (bib : BibDB)
    (priorRefs priorAuthors : JStore) :
    buildDatabases nfd chapters bib
        (buildDatabases nfd chapters bib priorRefs priorAuthors).2.1
        (buildDatabases nfd chapters bib priorRefs priorAuthors).2.2 =
      buildDatabases nfd chapters bib priorRefs priorAuthors := by
  have hnd : NodupKeys (matchPhase chapters bib).allMatches :=
    matchPhase_allMatches_nodup chapters bib
  have h2 : buildReferences nfd
      (buildReferences nfd priorRefs (matchPhase chapters bib).allMatches
        (matchPhase chapters bib).htmlUrls)
      (matchPhase chapters bib).allMatches (matchPhase chapters bib).htmlUrls =
      buildReferences nfd priorRefs (matchPhase chapters bib).allMatches
        (matchPhase chapters bib).htmlUrls :=
    buildReferences_idem nfd priorRefs (matchPhase chapters bib).allMatches
      (matchPhase chapters bib).htmlUrls hnd
  have h3 : buildAuthors nfd
      (buildAuthors nfd priorAuthors (matchPhase chapters bib).allMatches)
      (matchPhase chapters bib).allMatches =
      buildAuthors nfd priorAuthors (matchPhase chapters bib).allMatches :=
    buildAuthors_idem nfd priorAuthors (matchPhase chapters bib).allMatches
  show ((matchPhase chapters bib).chapterMap,
      buildReferences nfd
        (buildReferences nfd priorRefs (matchPhase chapters bib).allMatches
          (matchPhase chapters bib).htmlUrls)
        (matchPhase chapters bib).allMatches (matchPhase chapters bib).htmlUrls,
      buildAuthors nfd
        (buildAuthors nfd priorAuthors (matchPhase chapters bib).allMatches)
        (matchPhase chapters bib).allMatches) =
    ((matchPhase chapters bib).chapterMap,
      buildReferences nfd priorRefs (matchPhase chapters bib).allMatches
        (matchPhase chapters bib).htmlUrls,
      buildAuthors nfd priorAuthors (matchPhase chapters bib).allMatches)
  rw [h2, h3]
